import Mathlib

/-!
# Verification of the exam-practice engine

A shallow embedding, in Lean 4, of the core of the practice-session engine:

* `backend/app/services/grading.py` — text normalisation, spelling
  unification, token-set matching and the tiered `grade_answer` pipeline;
* `backend/app/services/rag_cache.py` — the content-addressed cache key and
  the fail-as-miss cache accessors;
* `backend/app/services/rate_limiter.py` — the leaky-bucket Lua script and
  the fail-open check;
* `backend/app/api/practice.py` — the practice-session state machine
  (`submit_practice_answer`, `complete_practice_session`) and the progress
  aggregator (`_update_progress_from_session`).

Modelling conventions:

* Python strings are modelled as `List Char`; the character classes of the
  regexes (`\w`, `\s`) and `str.lower()` are modelled at their ASCII meaning,
  which covers every string the engine actually compares.
* Python `set`s of tokens are modelled as `List (List Char)`; only
  membership, emptiness and `issubset` are used by the code, so a list is a
  faithful model of the set.
* Machine floats (bucket tokens, timestamps) are modelled as `ℚ`; every
  arithmetic step taken by the limiter on the claims' inputs is exact in
  binary floating point, so the rational model agrees with the float one.
* Redis/database effects are modelled by explicit state passing; a raised
  exception that the code catches is modelled as an `Except.error` input,
  and an HTTP-error response as an `Except.error` output (the DB transaction
  of a failed request is rolled back, i.e. the state is unchanged).
-/

/-! ## Character classes and basic string helpers (`grading.py` regexes)

`_STRIP_ARTICLES = \b(the|a|an)\b`, `_STRIP_PUNCT = [^\w\s]`,
`_MULTI_SPACE = \s+`, all applied to already-lowercased text. -/

/-- `\w` (ASCII): letters (65–90, 97–122), digits (48–57), underscore (95). -/
def isWordChar (c : Char) : Bool :=
  (65 ≤ c.toNat && c.toNat ≤ 90) || (97 ≤ c.toNat && c.toNat ≤ 122) ||
    (48 ≤ c.toNat && c.toNat ≤ 57) || c.toNat = 95

/-- `\s` (ASCII): the whitespace characters recognised by Python's `str.strip`
and `\s` — space, tab, newline, vertical tab, form feed, carriage return. -/
def isSpaceChar (c : Char) : Bool :=
  c.toNat = 32 || c.toNat = 9 || c.toNat = 10 || c.toNat = 11 ||
    c.toNat = 12 || c.toNat = 13

/-- `str.lower()` on the ASCII range. -/
def asciiLowerChar (c : Char) : Char :=
  if 65 ≤ c.toNat ∧ c.toNat ≤ 90 then Char.ofNat (c.toNat + 32) else c

/-- `str.lower()` on a whole string. -/
def asciiLower (s : List Char) : List Char :=
  s.map asciiLowerChar

/-- Remove a trailing run of whitespace (the right half of `str.strip()`). -/
def dropTrailing (s : List Char) : List Char :=
  s.foldr (fun c acc => if acc = [] ∧ isSpaceChar c then [] else c :: acc) []

/-- `str.strip()`: drop leading and trailing whitespace. -/
def pyStrip (s : List Char) : List Char :=
  dropTrailing (s.dropWhile isSpaceChar)

/-- The three article words removed by `_STRIP_ARTICLES`. -/
def articleWords : List (List Char) :=
  [('t' :: 'h' :: 'e' :: []), ('a' :: []), ('a' :: 'n' :: [])]

/-- What `re.sub(r"\b(the|a|an)\b", " ", ·)` does to one maximal `\w`-run:
an article run becomes a single space, any other run is kept.  (A match of
that pattern is exactly a maximal word-character run equal to one of the
three articles, because the pattern consists of word characters delimited by
`\b` on both sides.) -/
def emitWordRun (w : List Char) : List Char :=
  if w ∈ articleWords then [' '] else w

/-- Worker for `subArticles`: walks the string, accumulating the current
maximal `\w`-run (reversed) in `run`, and emits each finished run through
`emitWordRun`. -/
def subArticlesGo : List Char → List Char → List Char
  | run, [] => emitWordRun run.reverse
  | run, c :: cs =>
    if isWordChar c then subArticlesGo (c :: run) cs
    else emitWordRun run.reverse ++ c :: subArticlesGo [] cs

/-- `_STRIP_ARTICLES.sub(" ", t)`. -/
def subArticles (s : List Char) : List Char :=
  subArticlesGo [] s

/-- `_STRIP_PUNCT.sub(" ", t)`: every character that is neither `\w` nor
`\s` becomes a space (each match of `[^\w\s]` is a single character). -/
def stripPunct (s : List Char) : List Char :=
  s.map fun c => if !isWordChar c && !isSpaceChar c then ' ' else c

/-- Worker for `collapseWs`: `b` records whether the previous input
character was part of a whitespace run that has already emitted its space. -/
def collapseWsGo : Bool → List Char → List Char
  | _, [] => []
  | b, c :: cs =>
    if isSpaceChar c then
      if b then collapseWsGo true cs else ' ' :: collapseWsGo true cs
    else c :: collapseWsGo false cs

/-- `_MULTI_SPACE.sub(" ", t)`: each maximal whitespace run becomes one
space. -/
def collapseWs (s : List Char) : List Char :=
  collapseWsGo false s

/-- `_normalise` from `grading.py`:
`t.lower().strip()`, strip articles, strip punctuation, collapse
whitespace, strip. -/
def normalise (t : List Char) : List Char :=
  pyStrip (collapseWs (stripPunct (subArticles (pyStrip (asciiLower t)))))

/-- Worker for `splitWs` (Python's no-argument `str.split()`): maximal
non-whitespace runs, accumulating the current run reversed. -/
def splitWsGo : List Char → List Char → List (List Char)
  | run, [] => if run = [] then [] else [run.reverse]
  | run, c :: cs =>
    if isSpaceChar c then
      if run = [] then splitWsGo [] cs else run.reverse :: splitWsGo [] cs
    else splitWsGo (c :: run) cs

/-- Python `str.split()` with no argument. -/
def splitWs (s : List Char) : List (List Char) :=
  splitWsGo [] s

/-- Worker for `wordRunsOf`: the maximal `\w`-runs of a string. -/
def wordRunsGo : List Char → List Char → List (List Char)
  | run, [] => if run = [] then [] else [run.reverse]
  | run, c :: cs =>
    if isWordChar c then wordRunsGo (c :: run) cs
    else if run = [] then wordRunsGo [] cs else run.reverse :: wordRunsGo [] cs

/-- The maximal `\w`-runs of a string, in order (proof device used to state
what the regex pipeline computes). -/
def wordRunsOf (s : List Char) : List (List Char) :=
  wordRunsGo [] s

/-- Join words with single spaces (proof device: the canonical shape of
`_normalise`'s output). -/
def joinSp : List (List Char) → List Char
  | [] => []
  | [w] => w
  | w :: ws => w ++ ' ' :: joinSp ws

/-! ## Spelling unification (`_SPELLING_EQUIVALENTS`, `_unify_spelling`) -/

/-- The fixed `(american, british)` spelling table of `grading.py`. -/
def spellingEquivalents : List (List Char × List Char) :=
  [("organization".toList, "organisation".toList),
   ("recognize".toList, "recognise".toList),
   ("realize".toList, "realise".toList),
   ("analyze".toList, "analyse".toList),
   ("center".toList, "centre".toList),
   ("color".toList, "colour".toList),
   ("honor".toList, "honour".toList),
   ("favor".toList, "favour".toList),
   ("defense".toList, "defence".toList),
   ("offense".toList, "offence".toList),
   ("license".toList, "licence".toList),
   ("practice".toList, "practise".toList),
   ("catalog".toList, "catalogue".toList),
   ("dialog".toList, "dialogue".toList),
   ("program".toList, "programme".toList),
   ("labor".toList, "labour".toList),
   ("neighbor".toList, "neighbour".toList),
   ("behavior".toList, "behaviour".toList)]

/-- Fuelled worker for Python's `str.replace(pat, rep)`: left-to-right,
non-overlapping.  The fuel is only a structural-recursion device; it is
always called with fuel ≥ length of the string, which never runs out
because each step consumes at least one character. -/
def replaceAllF (pat rep : List Char) : Nat → List Char → List Char
  | _, [] => []
  | 0, s => s
  | fuel + 1, c :: cs =>
    if pat ≠ [] ∧ pat.isPrefixOf (c :: cs) then
      rep ++ replaceAllF pat rep fuel ((c :: cs).drop pat.length)
    else c :: replaceAllF pat rep fuel cs

/-- Python's `str.replace(pat, rep)` (for the nonempty patterns the code
uses). -/
def replaceAll (pat rep s : List Char) : List Char :=
  replaceAllF pat rep s.length s

/-- `_unify_spelling`: lowercase, then for each table row map the British
form to the American one (the source's second `.replace(american, american)`
is kept verbatim; it rewrites matches to themselves). -/
def unifySpelling (text : List Char) : List Char :=
  spellingEquivalents.foldl
    (fun t pr => replaceAll pr.1 pr.1 (replaceAll pr.2 pr.1 t))
    (asciiLower text)

/-! ## Grading tiers (`grading.py`) -/

/-- `_tier1_normalised_match`. -/
def tier1NormalisedMatch (student correct : List Char) : Bool :=
  unifySpelling (normalise student) == unifySpelling (normalise correct)

/-- The stop-word set `noise` of `_tier2_token_match`. -/
def noiseWords : List (List Char) :=
  ["and".toList, "or".toList, "of".toList, "for".toList, "in".toList,
   "to".toList, "is".toList, "are".toList, "was".toList, "were".toList,
   "be".toList]

/-- `{t for t in tokens - noise if len(t) > 1}`: the "key" tokens of an
already unified-and-normalised string. -/
def keyTokens (unified : List Char) : List (List Char) :=
  ((splitWs unified).filter (fun t => !noiseWords.contains t)).filter
    (fun t => t.length > 1)

/-- `issubset` on token sets. -/
def subsetB (xs ys : List (List Char)) : Bool :=
  xs.all fun x => ys.contains x

/-- The plural/possessive expansion of `_tier2_token_match`: every token, plus
`token[:-1]` for each token ending in `s` of length > 2. -/
def expandTokens (key : List (List Char)) : List (List Char) :=
  key ++ (key.filter fun t => t.getLast? = some 's' ∧ t.length > 2).map
    fun t => t.dropLast

/-- `_tier2_token_match`. -/
def tier2TokenMatch (student correct : List Char) : Bool :=
  let studentUnified := unifySpelling (normalise student)
  let correctUnified := unifySpelling (normalise correct)
  let correctKey := keyTokens correctUnified
  let studentKey := keyTokens studentUnified
  if correctKey = [] then true
  else
    let studentExpanded := expandTokens studentKey
    let correctExpanded := expandTokens correctKey
    subsetB correctKey studentExpanded || subsetB correctExpanded studentExpanded

/-- `grade_answer`.  The optional RAG client is modelled as an optional
semantic-grading oracle `question → correct → student → Option Bool`
(`_tier3_llm_grade` returns `None` exactly when the LLM call fails or its
reply is unparseable). -/
def gradeAnswer (questionType studentAnswer : List Char)
    (correctAnswer : Option (List Char)) (questionText : List Char)
    (ragClient : Option (List Char → List Char → List Char → Option Bool)) :
    Bool :=
  match correctAnswer with
  | none => false
  | some ca =>
    let student := pyStrip studentAnswer
    let correct := pyStrip ca
    if student = [] then false
    else if questionType = "mcq".toList then
      asciiLower student == asciiLower correct
    else if tier1NormalisedMatch student correct then true
    else if tier2TokenMatch student correct then true
    else
      match ragClient with
      | some rc =>
        match rc questionText correct student with
        | some b => b
        | none => false
      | none => false

/-- Modelled from the spec's words (claim C4), for comparison with
`tier2TokenMatch`: "correct iff the (expanded) correct-answer token set is a
subset of the (expanded) student token set, or vice versa with the
pre-expansion sets". -/
def specTier2Condition (student correct : List Char) : Bool :=
  let studentUnified := unifySpelling (normalise student)
  let correctUnified := unifySpelling (normalise correct)
  let correctKey := keyTokens correctUnified
  let studentKey := keyTokens studentUnified
  subsetB (expandTokens correctKey) (expandTokens studentKey) ||
    subsetB studentKey correctKey

/-! ## RAG cache key (`rag_cache.py`)

`_make_key(prefix, params)` serialises the params dict with
`json.dumps(params, sort_keys=True, default=str)`, hashes it with SHA-256
and keeps the first 16 hex characters:
`f"rag_cache:{prefix}:{digest}"`.

Params are modelled as association lists of string keys to string/int
values — the exact shape every call site (`retrieve`/`query` in
`rag_client.py`) passes. -/

/-- A JSON-serialisable parameter value as used by the cache's callers. -/
inductive JParam where
  | jstr : List Char → JParam
  | jint : Int → JParam
deriving DecidableEq

/-- One character of a JSON string, escaped the way `json.dumps` (with its
default `ensure_ascii=True`) escapes it. -/
def jsonEscapeChar (c : Char) : List Char :=
  if c = '"' then ['\\', '"']
  else if c = '\\' then ['\\', '\\']
  else if c = '\n' then ['\\', 'n']
  else if c = '\r' then ['\\', 'r']
  else if c = '\t' then ['\\', 't']
  else if c.toNat < 32 ∨ c.toNat > 126 then
    '\\' :: 'u' :: (Nat.toDigits 16 c.toNat).reverse.takeD 4 '0' |>.reverse
  else [c]

/-- A JSON string literal: quotes around the escaped characters. -/
def jsonStr (s : List Char) : List Char :=
  '"' :: (s.flatMap jsonEscapeChar) ++ ['"']

/-- Serialise one parameter value. -/
def serialiseJParam : JParam → List Char
  | .jstr s => jsonStr s
  | .jint n => (Int.repr n).toList

/-- One `"key": value` item of the serialised dict (`json.dumps`'s default
`': '` separator). -/
def serialiseEntry (e : List Char × JParam) : List Char :=
  jsonStr e.1 ++ ':' :: ' ' :: serialiseJParam e.2

/-- Join serialised items with `json.dumps`'s default `', '` separator. -/
def joinComma : List (List Char) → List Char
  | [] => []
  | [x] => x
  | x :: xs => x ++ ',' :: ' ' :: joinComma xs

/-- Keys are compared as strings (`sort_keys=True` sorts the dict keys). -/
def keyLe (a b : List Char × JParam) : Prop :=
  a.1 ≤ b.1

instance : DecidableRel keyLe := fun a b =>
  inferInstanceAs (Decidable (a.1 ≤ b.1))

/-- `json.dumps(params, sort_keys=True)` for a flat string/int dict, down to
the braces and separators Python emits. -/
def serialiseParams (params : List (List Char × JParam)) : List Char :=
  Char.ofNat 123 :: joinComma ((params.insertionSort keyLe).map serialiseEntry)
    ++ [Char.ofNat 125]

/-! SHA-256, over `Nat` with explicit reduction mod `2^32`. -/

/-- `2^32`, the word modulus of SHA-256. -/
def w32 : Nat := 4294967296

/-- Rotate a 32-bit word right by `n`. -/
def rotr32 (n w : Nat) : Nat :=
  (w / 2 ^ n + w % 2 ^ n * 2 ^ (32 - n)) % w32

/-- The SHA-256 round constants. -/
def sha256K : List Nat :=
  [1116352408, 1899447441, 3049323471, 3921009573, 961987163,
   1508970993, 2453635748, 2870763221, 3624381080, 310598401,
   607225278, 1426881987, 1925078388, 2162078206, 2614888103,
   3248222580, 3835390401, 4022224774, 264347078, 604807628,
   770255983, 1249150122, 1555081692, 1996064986, 2554220882,
   2821834349, 2952996808, 3210313671, 3336571891, 3584528711,
   113926993, 338241895, 666307205, 773529912, 1294757372,
   1396182291, 1695183700, 1986661051, 2177026350, 2456956037,
   2730485921, 2820302411, 3259730800, 3345764771, 3516065817,
   3600352804, 4094571909, 275423344, 430227734, 506948616,
   659060556, 883997877, 958139571, 1322822218, 1537002063,
   1747873779, 1955562222, 2024104815, 2227730452, 2361852424,
   2428436474, 2756734187, 3204031479, 3329325298]

/-- The SHA-256 initial hash value. -/
def sha256H0 : List Nat :=
  [1779033703, 3144134277, 1013904242, 2773480762,
   1359893119, 2600822924, 528734635, 1541459225]

/-- Pad a byte message: append `0x80`, zeros to 56 mod 64, and the 64-bit
big-endian bit length. -/
def sha256Pad (msg : List Nat) : List Nat :=
  let ml := msg.length * 8
  msg ++ 0x80 :: List.replicate ((119 - msg.length % 64) % 64) 0 ++
    [ml / 2 ^ 56 % 256, ml / 2 ^ 48 % 256, ml / 2 ^ 40 % 256,
     ml / 2 ^ 32 % 256, ml / 2 ^ 24 % 256, ml / 2 ^ 16 % 256,
     ml / 2 ^ 8 % 256, ml % 256]

/-- Split the padded message into 64-byte chunks (fuelled; fuel ≥ number of
chunks always holds at the call site). -/
def chunks64F : Nat → List Nat → List (List Nat)
  | _, [] => []
  | 0, _ => []
  | fuel + 1, bs => bs.take 64 :: chunks64F fuel (bs.drop 64)

/-- Pack bytes into big-endian 32-bit words (fuelled likewise). -/
def words32F : Nat → List Nat → List Nat
  | _, [] => []
  | 0, _ => []
  | fuel + 1, bs =>
    (bs.getD 0 0 * 2 ^ 24 + bs.getD 1 0 * 2 ^ 16 + bs.getD 2 0 * 2 ^ 8 +
      bs.getD 3 0) :: words32F fuel (bs.drop 4)

/-- Extend 16 message words to the 64-entry message schedule. -/
def sha256Schedule (ws : List Nat) : List Nat :=
  (List.range' 16 48).foldl
    (fun acc t =>
      let wm15 := acc.getD (t - 15) 0
      let wm2 := acc.getD (t - 2) 0
      let s0 := (rotr32 7 wm15).xor ((rotr32 18 wm15).xor (wm15 / 2 ^ 3))
      let s1 := (rotr32 17 wm2).xor ((rotr32 19 wm2).xor (wm2 / 2 ^ 10))
      acc ++ [(acc.getD (t - 16) 0 + s0 + acc.getD (t - 7) 0 + s1) % w32])
    ws

/-- One compression round. -/
def sha256Round (st : Nat × Nat × Nat × Nat × Nat × Nat × Nat × Nat)
    (kw : Nat × Nat) : Nat × Nat × Nat × Nat × Nat × Nat × Nat × Nat :=
  let (a, b, c, d, e, f, g, h) := st
  let s1 := (rotr32 6 e).xor ((rotr32 11 e).xor (rotr32 25 e))
  let ch := (e.land f).xor ((e.xor (w32 - 1)).land g)
  let temp1 := (h + s1 + ch + kw.1 + kw.2) % w32
  let s0 := (rotr32 2 a).xor ((rotr32 13 a).xor (rotr32 22 a))
  let maj := ((a.land b).xor (a.land c)).xor (b.land c)
  let temp2 := (s0 + maj) % w32
  ((temp1 + temp2) % w32, a, b, c, (d + temp1) % w32, e, f, g)

/-- Compress one 64-byte chunk into the running hash (8 words). -/
def sha256Compress (hs : List Nat) (chunk : List Nat) : List Nat :=
  let ws := sha256Schedule (words32F chunk.length chunk)
  let init := (hs.getD 0 0, hs.getD 1 0, hs.getD 2 0, hs.getD 3 0,
               hs.getD 4 0, hs.getD 5 0, hs.getD 6 0, hs.getD 7 0)
  let st := (sha256K.zip ws).foldl sha256Round init
  [(hs.getD 0 0 + st.1) % w32, (hs.getD 1 0 + st.2.1) % w32,
   (hs.getD 2 0 + st.2.2.1) % w32, (hs.getD 3 0 + st.2.2.2.1) % w32,
   (hs.getD 4 0 + st.2.2.2.2.1) % w32, (hs.getD 5 0 + st.2.2.2.2.2.1) % w32,
   (hs.getD 6 0 + st.2.2.2.2.2.2.1) % w32,
   (hs.getD 7 0 + st.2.2.2.2.2.2.2) % w32]

/-- SHA-256 of a byte message, as 8 words. -/
def sha256Words (msg : List Nat) : List Nat :=
  let padded := sha256Pad msg
  (chunks64F padded.length padded).foldl sha256Compress sha256H0

/-- One hex digit. -/
def hexDigit (n : Nat) : Char :=
  "0123456789abcdef".toList.getD n '0'

/-- A 32-bit word as exactly 8 hex characters. -/
def wordHex8 (w : Nat) : List Char :=
  [hexDigit (w / 2 ^ 28 % 16), hexDigit (w / 2 ^ 24 % 16),
   hexDigit (w / 2 ^ 20 % 16), hexDigit (w / 2 ^ 16 % 16),
   hexDigit (w / 2 ^ 12 % 16), hexDigit (w / 2 ^ 8 % 16),
   hexDigit (w / 2 ^ 4 % 16), hexDigit (w % 16)]

/-- `hashlib.sha256(serialised.encode()).hexdigest()`: 64 hex characters.
(The serialised params are ASCII — `json.dumps` escapes everything else —
so UTF-8 encoding is the identity on code points.) -/
def sha256Hex (s : List Char) : List Char :=
  (sha256Words (s.map Char.toNat)).flatMap wordHex8

/-- `_make_key(prefix, params)` from `rag_cache.py`:
`f"rag_cache:{prefix}:{sha256(json.dumps(params, sort_keys=True))[:16]}"`. -/
def makeKey (opKind : List Char) (params : List (List Char × JParam)) :
    List Char :=
  "rag_cache:".toList ++ opKind ++ ':' ::
    (sha256Hex (serialiseParams params)).take 16

/-- Modelled from the spec's words (claim C8), for comparison with
`makeKey`: the key "is `sha256(sorted-json(request-params))` namespaced by
operation kind" — i.e. the full 64-character hexdigest, not a truncation. -/
def specCacheKeyFullDigest (opKind : List Char)
    (params : List (List Char × JParam)) : List Char :=
  "rag_cache:".toList ++ opKind ++ ':' :: sha256Hex (serialiseParams params)

/-! ## Cache and rate-limiter store access (`rag_cache.py`, `rate_limiter.py`)

A store interaction that may raise is modelled as an `Except StoreErr`
input; each accessor's `try/except` is the `match` on that input. -/

/-- A failure of the shared key-value store (any exception raised by the
Redis client). -/
inductive StoreErr where
  | connectionFailed
  | timeout
deriving DecidableEq

/-- `cache_get`: returns the parsed payload on a hit, `None` on a miss, on
a disabled cache, or on *any* store error (the `except` branch logs and
returns `None`).  The result type `Except StoreErr _` shows that no store
error escapes: the result is always `.ok`.  (`json.loads` of the stored
payload is the identity on this model's payloads; a parse failure is caught
by the same `except` and is likewise a miss.) -/
def cacheGet (enabled : Bool) (readResult : Except StoreErr (Option (List Char))) :
    Except StoreErr (Option (List Char)) :=
  if !enabled then .ok none
  else
    match readResult with
    | .ok r => .ok r
    | .error _ => .ok none

/-- `cache_set`: stores the payload; on a disabled cache does nothing; on
*any* store error logs and returns normally (the write is a no-op). -/
def cacheSet (enabled : Bool) (writeResult : Except StoreErr Unit) :
    Except StoreErr Unit :=
  if !enabled then .ok ()
  else
    match writeResult with
    | .ok _ => .ok ()
    | .error _ => .ok ()

/-! ## Leaky-bucket rate limiter (`rate_limiter.py`)

The Lua script runs atomically in Redis; its state is the hash
`(tokens, last_refill)`, absent before the first call (and after the
120-second idle `EXPIRE`).  Floats are modelled as `ℚ` (see the header). -/

/-- The stored bucket: `(tokens, last_refill)`. -/
def Bucket : Type := ℚ × ℚ

/-- What `HMGET` sees at time `now`: the stored hash, unless the key has
passed its 120 s `EXPIRE` (set at the previous call, i.e. at `last_refill`). -/
def readBucket (st : Option Bucket) (now : ℚ) : Option Bucket :=
  match st with
  | none => none
  | some b => if now - b.2 > 120 then none else some b

/-- The body of `_LUA_SCRIPT`: initialise a full bucket on first use, refill
at `refillRate` tokens/second since the last call (clamped at `maxTokens`),
admit iff at least one token remains, and write the bucket back. -/
def luaTakeToken (maxTokens refillRate now : ℚ) (bucket : Option Bucket) :
    Bool × Bucket :=
  let (tokens, lastRefill) :=
    match bucket with
    | none => (maxTokens, now)
    | some b => b
  let elapsed := max 0 (now - lastRefill)
  let tokens := min maxTokens (tokens + elapsed * refillRate)
  if tokens ≥ 1 then (true, (tokens - 1, now)) else (false, (tokens, now))

/-- `_check(bucket_key)`: disabled limiter (`rpm ≤ 0`) always allows; else
run the script with `burst` capacity and `rpm / 60` tokens/second.  Returns
the verdict and the stored state after the call. -/
def rlCheck (rpm burst : ℤ) (now : ℚ) (st : Option Bucket) :
    Bool × Option Bucket :=
  if rpm ≤ 0 then (true, st)
  else
    let (allowed, b) :=
      luaTakeToken (burst : ℚ) ((rpm : ℚ) / 60) now (readBucket st now)
    (allowed, some b)

/-- The error raised by `require_rag_rate_limit` (HTTP 429). -/
inductive RateLimited where
  | rateLimited
deriving DecidableEq

/-- `require_rag_rate_limit`: raise 429 iff `_check` rejects. -/
def requireRagRateLimit (rpm burst : ℤ) (now : ℚ) (st : Option Bucket) :
    Except RateLimited Unit × Option Bucket :=
  match rlCheck rpm burst now st with
  | (true, st') => (.ok (), st')
  | (false, st') => (.error .rateLimited, st')

/-- Run a sequence of admission checks at the given timestamps, collecting
each call's outcome. -/
def runRateLimited (rpm burst : ℤ) :
    Option Bucket → List ℚ → List (Except RateLimited Unit) × Option Bucket
  | st, [] => ([], st)
  | st, t :: ts =>
    let (r, st') := requireRagRateLimit rpm burst t st
    let (rs, stFinal) := runRateLimited rpm burst st' ts
    (r :: rs, stFinal)

/-- `_check` with the store interaction made explicit (claim C7): the Lua
`eval` either returns the script's integer verdict or raises.  The
`try/except` of `_check` turns any store error into an allowed request, so
the result is always `.ok` — fail-open. -/
def rlCheckOutcome (rpm : ℤ) (evalResult : Except StoreErr Int) :
    Except StoreErr Bool :=
  if rpm ≤ 0 then .ok true
  else
    match evalResult with
    | .ok allowed => .ok (allowed != 0)
    | .error _ => .ok true

/-! ## Practice sessions (`practice.py`)

`submit_practice_answer`, `complete_practice_session` and
`_update_progress_from_session`, over an explicit world of one session and
its student's per-topic progress rows.

Modelling notes:
* DB `Integer` columns are `ℤ` (`question_count` is unvalidated, so
  `total_questions` really can be `0` or negative); timestamps are `ℚ`.
* A `Progress` row is keyed here by its resolved topic name — the code keys
  it by `topic_id` after a find-or-create of the `Topic` by that same name,
  so distinct names give distinct rows and vice versa.
* The grading pipeline's output for each answer is an input of the `answer`
  operation (its internals are the `gradeAnswer` model above; the session
  machine only reads `is_correct`/`score` out of it).
* Unused columns (ids, OCR fields, feedback text, source references) are
  omitted; they are never read by the operations under verification. -/

/-- `PracticeStatusEnum`. -/
inductive PracticeStatus where
  | inProgress
  | completed
  | abandoned
deriving DecidableEq

/-- One `PracticeAnswer` row, with the fields the engine reads back. -/
structure AnswerRec where
  questionText : List Char
  studentAnswer : List Char
  /-- `is_correct` is a nullable boolean (`None` = ungradable). -/
  isCorrect : Option Bool
  score : ℚ
  /-- Whether `question_id` refers to a real pool question
  (`answer.question_id and answer.question` in the aggregator). -/
  hasDbQuestion : Bool
  /-- The linked pool question's topic name, when it has one. -/
  questionTopicName : Option (List Char)
deriving DecidableEq

/-- The `PracticeSession` row. -/
structure SessionRec where
  status : PracticeStatus
  totalQuestions : ℤ
  answeredCount : ℤ
  correctCount : ℤ
  completedAt : Option ℚ
  answers : List AnswerRec
  /-- The session's subject's name, if the subject resolves (used by the
  aggregator's topic fallback). -/
  subjectName : Option (List Char)
deriving DecidableEq

/-- A `Progress` row (per student × topic). -/
structure ProgressRec where
  totalCorrect : ℤ
  totalQuestions : ℤ
  /-- `round(total_correct / total_questions, 4)`; Python rounds halves to
  even — the claims never touch a half, so `round` models it exactly where
  it matters. -/
  accuracy : ℚ
  attemptCount : ℤ
  lastAttemptedAt : Option ℚ
deriving DecidableEq

/-- The state touched by the practice endpoints: the session row and the
student's progress rows (keyed by resolved topic name, insertion order). -/
structure PracticeWorld where
  session : SessionRec
  progress : List (List Char × ProgressRec)
deriving DecidableEq

/-- The typed errors of the practice endpoints (HTTP 400/404 bodies). -/
inductive ApiError where
  /-- 400 "Practice session is not active". -/
  | invalidState
  /-- 400 "No answer provided". -/
  | noAnswerProvided
deriving DecidableEq

/-- What the grading pipeline (`_grade_answer_with_rag`) returned for one
answer. -/
structure GradeResult where
  isCorrect : Option Bool
  score : ℚ
deriving DecidableEq

/-- The per-call inputs of one `POST /{session_id}/answer` request: the
request body's answer text, the graded result, and the answer-row fields
recorded for later aggregation. -/
structure AnswerCall where
  now : ℚ
  questionText : List Char
  /-- `body.answer_text` (`None` and `""` are both falsy for
  `student_answer = body.answer_text or ""`). -/
  answerText : Option (List Char)
  grade : GradeResult
  hasDbQuestion : Bool
  questionTopicName : Option (List Char)
deriving DecidableEq

/-- `submit_practice_answer` (the OCR branch is not exercised: no image).
Guard on `IN_PROGRESS`, reject empty answers, append the `PracticeAnswer`,
bump the counters, and flip to `COMPLETED` with a timestamp once
`answered_count >= total_questions`.  An `.error` outcome is an HTTP 400
raised before `db.commit()`, so the world is unchanged. -/
def submitPracticeAnswer (call : AnswerCall) (w : PracticeWorld) :
    Except ApiError PracticeWorld :=
  let s := w.session
  if s.status ≠ PracticeStatus.inProgress then .error .invalidState
  else
    let studentAnswer := call.answerText.getD []
    if studentAnswer = [] then .error .noAnswerProvided
    else
      let answerRec : AnswerRec :=
        { questionText := call.questionText
          studentAnswer := studentAnswer
          isCorrect := call.grade.isCorrect
          score := call.grade.score
          hasDbQuestion := call.hasDbQuestion
          questionTopicName := call.questionTopicName }
      let answered := s.answeredCount + 1
      let correct :=
        s.correctCount + (if call.grade.isCorrect = some true then 1 else 0)
      let finished := answered ≥ s.totalQuestions
      .ok
        { session :=
            { s with
              answers := s.answers ++ [answerRec]
              answeredCount := answered
              correctCount := correct
              status := if finished then .completed else s.status
              completedAt := if finished then some call.now else s.completedAt }
          progress := w.progress }

/-- The observable state after one `answer` request: the committed world on
success, the rolled-back (unchanged) world on an HTTP error. -/
def stepAnswer (call : AnswerCall) (w : PracticeWorld) : PracticeWorld :=
  match submitPracticeAnswer call w with
  | .ok w' => w'
  | .error _ => w

/-- A sequence of `answer` requests against the same session. -/
def runAnswers (calls : List AnswerCall) (w : PracticeWorld) : PracticeWorld :=
  calls.foldl (fun acc c => stepAnswer c acc) w

/-- The topic bucket an answer lands in
(`_update_progress_from_session`'s per-answer resolution): the linked pool
question's topic name when there is one, `"General"` for a linked question
without a topic, and the subject name (or `"General"`) for RAG-generated
answers. -/
def resolveTopicName (subjectName : Option (List Char)) (a : AnswerRec) :
    List Char :=
  if a.hasDbQuestion then a.questionTopicName.getD ("General".toList)
  else subjectName.getD ("General".toList)

/-- Add one answer to the per-topic tally list
(`topic_tallies.setdefault(...)` then `+= 1`s; Python dicts iterate in
insertion order, hence the ordered association list). -/
def bumpTally (tallies : List (List Char × ℤ × ℤ)) (name : List Char)
    (isCorrect : Bool) : List (List Char × ℤ × ℤ) :=
  match tallies with
  | [] => [(name, ((if isCorrect then 1 else 0), 1))]
  | (k, cnt) :: rest =>
    if k = name then
      (k, (cnt.1 + (if isCorrect then 1 else 0), cnt.2 + 1)) :: rest
    else (k, cnt) :: bumpTally rest name isCorrect

/-- Bucket a session's answers by topic name: `(correct, total)` per topic.
(`if answer.is_correct:` is Python truthiness — only `True` counts.) -/
def sessionTallies (subjectName : Option (List Char))
    (answers : List AnswerRec) : List (List Char × ℤ × ℤ) :=
  answers.foldl
    (fun ts a => bumpTally ts (resolveTopicName subjectName a)
      (a.isCorrect = some true))
    []

/-- `round(x, 4)` (Python's 4-decimal rounding; see `ProgressRec.accuracy`). -/
def round4 (q : ℚ) : ℚ :=
  (round (q * 10000) : ℤ) / 10000

/-- Upsert one topic's tally into the progress rows: find the student's row
for that topic (creating a fresh zeroed row if absent), then
`total_correct += c`, `total_questions += t`, `attempt_count += 1`,
recompute `accuracy`, stamp `last_attempted_at`. -/
def upsertProgress (now : ℚ) (ps : List (List Char × ProgressRec))
    (name : List Char) (c t : ℤ) : List (List Char × ProgressRec) :=
  match ps with
  | [] =>
    [(name,
      { totalCorrect := c
        totalQuestions := t
        accuracy := if t ≠ 0 then round4 ((c : ℚ) / (t : ℚ)) else 0
        attemptCount := 1
        lastAttemptedAt := some now })]
  | (k, p) :: rest =>
    if k = name then
      let tc := p.totalCorrect + c
      let tq := p.totalQuestions + t
      (k,
        { totalCorrect := tc
          totalQuestions := tq
          accuracy := if tq ≠ 0 then round4 ((tc : ℚ) / (tq : ℚ)) else 0
          attemptCount := p.attemptCount + 1
          lastAttemptedAt := some now }) :: rest
    else (k, p) :: upsertProgress now rest name c t

/-- `_update_progress_from_session`: no-op for a session without answers;
otherwise fold every topic tally into the progress rows. -/
def updateProgressFromSession (s : SessionRec)
    (ps : List (List Char × ProgressRec)) (now : ℚ) :
    List (List Char × ProgressRec) :=
  if s.answers = [] then ps
  else
    (sessionTallies s.subjectName s.answers).foldl
      (fun acc e => upsertProgress now acc e.1 e.2.1 e.2.2) ps

/-- `complete_practice_session`: unconditionally set `COMPLETED`, stamp
`completed_at`, and run the progress aggregator — whatever the current
status. -/
def completePracticeSession (now : ℚ) (w : PracticeWorld) : PracticeWorld :=
  let s :=
    { w.session with
      status := PracticeStatus.completed
      completedAt := some now }
  { session := s
    progress := updateProgressFromSession s w.progress now }

/-- The session row created by `start_practice_session`: `IN_PROGRESS`,
zero counters, no answers (`body.question_count` is *not* validated). -/
def freshWorld (totalQuestions : ℤ) (subjectName : Option (List Char)) :
    PracticeWorld :=
  { session :=
      { status := .inProgress
        totalQuestions := totalQuestions
        answeredCount := 0
        correctCount := 0
        completedAt := none
        answers := []
        subjectName := subjectName }
    progress := [] }

/-- Look up a progress row by topic name. -/
def lookupProgress (ps : List (List Char × ProgressRec)) (name : List Char) :
    Option ProgressRec :=
  match ps with
  | [] => none
  | (k, p) :: rest => if k = name then some p else lookupProgress rest name

/-- The sum of `total_questions` over all progress rows (a single number
that the aggregator's upserts move in a measurable way). -/
def totalQuestionsSum (ps : List (List Char × ProgressRec)) : ℤ :=
  (ps.map fun e => e.2.totalQuestions).sum

/-! # Theorems -/

/-! ## C7 — store failures are absorbed (fail-open / fail-as-miss) -/

/-- C7: when the shared key-value store fails (raises on access), a
rate-limit check returns allowed (fail-open), a cache read returns a miss
(`None`), and a cache write is a no-op; in none of these cases does the
store failure propagate to the caller as an error (every outcome is `.ok`). -/
theorem c7_store_failure_absorbed (e : StoreErr) (rpm : ℤ) (enabled : Bool) :
    rlCheckOutcome rpm (.error e) = .ok true ∧
    cacheGet enabled (.error e) = .ok none ∧
    cacheSet enabled (.error e) = .ok () := by
  refine ⟨?_, ?_, ?_⟩
  · by_cases h : rpm ≤ 0 <;> simp [rlCheckOutcome, h]
  · cases enabled <;> rfl
  · cases enabled <;> rfl

/-! ## C6 — `answer` on a non-`IN_PROGRESS` session -/

/-- C6: calling `answer` on a session whose status is not `IN_PROGRESS`
fails with the `InvalidState` error (HTTP 400 "Practice session is not
active"), and the session is left unchanged — no `PracticeAnswer` is
appended and no counter is modified (the observable world after the request
is the world before it). -/
theorem c6_answer_requires_in_progress (call : AnswerCall) (w : PracticeWorld)
    (h : w.session.status ≠ PracticeStatus.inProgress) :
    submitPracticeAnswer call w = .error ApiError.invalidState ∧
    stepAnswer call w = w := by
  have hs : submitPracticeAnswer call w = .error ApiError.invalidState := by
    unfold submitPracticeAnswer
    simp [h]
  exact ⟨hs, by unfold stepAnswer; rw [hs]⟩

/-- A concrete `COMPLETED` session (one correctly answered question). -/
def demoCompletedWorld : PracticeWorld :=
  { session :=
      { status := .completed
        totalQuestions := 1
        answeredCount := 1
        correctCount := 1
        completedAt := some 10
        answers :=
          [{ questionText := "What is water?".toList
             studentAnswer := "a liquid".toList
             isCorrect := some true
             score := 1
             hasDbQuestion := false
             questionTopicName := none }]
        subjectName := some ("Science".toList) }
    progress := [] }

/-- A concrete `answer` request. -/
def demoAnswerCall : AnswerCall :=
  { now := 11
    questionText := "What is ice?".toList
    answerText := some ("frozen water".toList)
    grade := { isCorrect := some true, score := 1 }
    hasDbQuestion := false
    questionTopicName := none }

/-- Witness for C6 at a concrete completed session. -/
theorem c6_answer_requires_in_progress_witness :
    submitPracticeAnswer demoAnswerCall demoCompletedWorld =
      .error ApiError.invalidState ∧
    stepAnswer demoAnswerCall demoCompletedWorld = demoCompletedWorld :=
  c6_answer_requires_in_progress demoAnswerCall demoCompletedWorld (by decide)

/-! ## C5 — leaky bucket: burst 5, 30 rpm -/

/-- C5: with burst capacity 5 and 30 requests/minute (0.5 tokens/second),
starting from a fresh (uninitialised) bucket, exactly 5 back-to-back calls
at one timestamp are admitted, the 6th call at that timestamp is rejected
with `RateLimited` (HTTP 429), and a further call after waiting at least
2 seconds is admitted again. -/
theorem c5_leaky_bucket_burst_and_refill (t delta : ℚ) (h : 2 ≤ delta) :
    (runRateLimited 30 5 none [t, t, t, t, t, t]).1 =
      [.ok (), .ok (), .ok (), .ok (), .ok (), .error .rateLimited] ∧
    (requireRagRateLimit 30 5 (t + delta)
        (runRateLimited 30 5 none [t, t, t, t, t, t]).2).1 = .ok () := by
  have hrun : runRateLimited 30 5 none [t, t, t, t, t, t] =
      ([.ok (), .ok (), .ok (), .ok (), .ok (), .error .rateLimited],
        some ((0 : ℚ), t)) := by
    simp [runRateLimited, requireRagRateLimit, rlCheck, readBucket, luaTakeToken]
    norm_num
  refine ⟨by rw [hrun], ?_⟩
  rw [hrun]
  have hstep : (rlCheck 30 5 (t + delta) (some ((0 : ℚ), t))).1 = true := by
    by_cases hexp : (120 : ℚ) < delta
    · have h1 : readBucket (some ((0 : ℚ), t)) (t + delta) = none := by
        simp only [readBucket]
        rw [if_pos (by linarith)]
      simp only [rlCheck, h1, luaTakeToken]
      rw [if_neg (by norm_num)]
      have h2 : (t + delta - (t + delta)) = 0 := by ring
      rw [h2]
      rw [if_pos (by norm_num)]
    · have h1 : readBucket (some ((0 : ℚ), t)) (t + delta) = some (0, t) := by
        simp only [readBucket]
        rw [if_neg (by linarith)]
      simp only [rlCheck, h1, luaTakeToken]
      rw [if_neg (by norm_num)]
      have he : t + delta - t = delta := by ring
      rw [he, max_eq_right (by linarith : (0 : ℚ) ≤ delta)]
      rw [if_pos (le_min (by norm_num) (by linarith))]
  rcases hE : rlCheck 30 5 (t + delta) (some ((0 : ℚ), t)) with ⟨a, st'⟩
  rw [hE] at hstep
  simp only at hstep
  subst hstep
  simp [requireRagRateLimit, hE]

/-- Witness for C5 at `t = 0`, `delta = 2`. -/
theorem c5_leaky_bucket_burst_and_refill_witness :
    (2 : ℚ) ≤ 2 ∧
    ((runRateLimited 30 5 none [0, 0, 0, 0, 0, 0]).1 =
      [.ok (), .ok (), .ok (), .ok (), .ok (), .error .rateLimited] ∧
    (requireRagRateLimit 30 5 ((0 : ℚ) + 2)
        (runRateLimited 30 5 none [0, 0, 0, 0, 0, 0]).2).1 = .ok ()) :=
  ⟨le_refl 2, c5_leaky_bucket_burst_and_refill 0 2 (le_refl 2)⟩

/-! ## Helper lemmas: character classes -/

theorem isSpaceChar_eq_false_of_isWordChar {c : Char} (h : isWordChar c = true) :
    isSpaceChar c = false := by
  simp only [isWordChar, isSpaceChar, Bool.or_eq_true, Bool.and_eq_true,
    decide_eq_true_eq, Bool.or_eq_false_iff, decide_eq_false_iff_not] at *
  omega

theorem charToNat_ofNat_of_lt {n : Nat} (h : n < 55296) :
    (Char.ofNat n).toNat = n := by
  unfold Char.ofNat
  rw [dif_pos (Or.inl h)]
  rfl

theorem toNat_asciiLowerChar (c : Char) :
    (asciiLowerChar c).toNat =
      if 65 ≤ c.toNat ∧ c.toNat ≤ 90 then c.toNat + 32 else c.toNat := by
  unfold asciiLowerChar
  by_cases h : 65 ≤ c.toNat ∧ c.toNat ≤ 90
  · rw [if_pos h, if_pos h, charToNat_ofNat_of_lt (by omega)]
  · rw [if_neg h, if_neg h]

theorem asciiLowerChar_idem (c : Char) :
    asciiLowerChar (asciiLowerChar c) = asciiLowerChar c := by
  unfold asciiLowerChar
  by_cases h : 65 ≤ c.toNat ∧ c.toNat ≤ 90
  · rw [if_pos h]
    have ht : (Char.ofNat (c.toNat + 32)).toNat = c.toNat + 32 :=
      charToNat_ofNat_of_lt (by omega)
    rw [if_neg (by rw [ht]; omega)]
  · rw [if_neg h, if_neg h]

theorem isSpaceChar_asciiLowerChar (c : Char) :
    isSpaceChar (asciiLowerChar c) = isSpaceChar c := by
  simp only [isSpaceChar, toNat_asciiLowerChar]
  by_cases h : 65 ≤ c.toNat ∧ c.toNat ≤ 90
  · rw [if_pos h, Bool.eq_iff_iff]
    simp only [Bool.or_eq_true, decide_eq_true_eq]
    omega
  · rw [if_neg h]

theorem isWordChar_asciiLowerChar (c : Char) :
    isWordChar (asciiLowerChar c) = isWordChar c := by
  simp only [isWordChar, toNat_asciiLowerChar]
  by_cases h : 65 ≤ c.toNat ∧ c.toNat ≤ 90
  · rw [if_pos h, Bool.eq_iff_iff]
    simp only [Bool.or_eq_true, Bool.and_eq_true, decide_eq_true_eq]
    omega
  · rw [if_neg h]

/-! ## Helper lemmas: run decomposition -/

theorem dropWhile_head_not {p : Char → Bool} :
    ∀ (l : List Char) (c : Char), (l.dropWhile p).head? = some c → p c = false := by
  intro l
  induction l with
  | nil => intro c h; simp [List.dropWhile] at h
  | cons a l ih =>
    intro c h
    rw [List.dropWhile_cons] at h
    by_cases hp : p a = true
    · rw [if_pos hp] at h
      exact ih c h
    · rw [if_neg hp] at h
      simp at h
      rw [← h]
      exact Bool.eq_false_iff.mpr hp

/-- Induction over the maximal-`\w`-run decomposition of a string. -/
theorem charRunInduction (p : Char → Bool) (P : List Char → Prop)
    (h0 : P [])
    (h1 : ∀ c s, p c = false → P s → P (c :: s))
    (h2 : ∀ w s, w ≠ [] → (∀ c ∈ w, p c = true) →
      (∀ c, s.head? = some c → p c = false) → P s → P (w ++ s)) :
    ∀ s, P s := by
  have key : ∀ (n : ℕ) (s : List Char), s.length ≤ n → P s := by
    intro n
    induction n with
    | zero => intro s hs; rw [Nat.le_zero, List.length_eq_zero] at hs; exact hs ▸ h0
    | succ n ih =>
      intro s hs
      match s with
      | [] => exact h0
      | c :: s' =>
        by_cases hp : p c = true
        · have hdec : c :: s' = (c :: s').takeWhile p ++ (c :: s').dropWhile p :=
            (List.takeWhile_append_dropWhile p _).symm
          rw [hdec]
          refine h2 _ _ ?_ ?_ ?_ (ih _ ?_)
          · rw [List.takeWhile_cons, if_pos hp]
            simp
          · intro a ha; exact List.mem_takeWhile_imp ha
          · intro a ha; exact dropWhile_head_not _ a ha
          · have : (c :: s').dropWhile p = s'.dropWhile p := by
              rw [List.dropWhile_cons, if_pos hp]
            rw [this]
            calc (s'.dropWhile p).length ≤ s'.length :=
                  (List.dropWhile_suffix p).sublist.length_le
              _ ≤ n := by simpa using hs
        · exact h1 c s' (Bool.eq_false_iff.mpr hp)
            (ih s' (by simpa using hs))
  intro s
  exact key s.length s le_rfl

theorem wordRunsGo_word_append {w : List Char} (hw : ∀ c ∈ w, isWordChar c = true) :
    ∀ (run s : List Char), wordRunsGo run (w ++ s) = wordRunsGo (w.reverse ++ run) s := by
  induction w with
  | nil => intro run s; simp
  | cons c w ih =>
    intro run s
    have hc : isWordChar c = true := hw c (by simp)
    rw [List.cons_append, wordRunsGo, if_pos hc,
      ih (fun a ha => hw a (by simp [ha])) (c :: run) s]
    simp

theorem wordRunsOf_cons_neg {c : Char} (hc : isWordChar c = false) (s : List Char) :
    wordRunsOf (c :: s) = wordRunsOf s := by
  unfold wordRunsOf
  rw [wordRunsGo, if_neg (by simp [hc]), if_pos rfl]

theorem wordRunsOf_run_append {w s : List Char} (hne : w ≠ [])
    (hw : ∀ c ∈ w, isWordChar c = true)
    (hs : ∀ c, s.head? = some c → isWordChar c = false) :
    wordRunsOf (w ++ s) = w :: wordRunsOf s := by
  unfold wordRunsOf
  rw [wordRunsGo_word_append hw [] s]
  match s with
  | [] =>
    rw [wordRunsGo, if_neg (by simp [hne]), wordRunsGo, if_pos rfl]
    simp
  | c :: s' =>
    have hc : isWordChar c = false := hs c rfl
    rw [wordRunsGo, if_neg (by simp [hc]), if_neg (by simp [hne])]
    have hskip : wordRunsGo [] (c :: s') = wordRunsGo [] s' := by
      rw [wordRunsGo, if_neg (by simp [hc]), if_pos rfl]
    rw [hskip]
    simp

theorem wordRunsOf_words {s : List Char} :
    ∀ w ∈ wordRunsOf s, w ≠ [] ∧ ∀ c ∈ w, isWordChar c = true := by
  induction s using charRunInduction (p := isWordChar) with
  | h0 => simp [wordRunsOf, wordRunsGo]
  | h1 c s hc ih => rw [wordRunsOf_cons_neg hc]; exact ih
  | h2 w s hne hw hs ih =>
    rw [wordRunsOf_run_append hne hw hs]
    intro u hu
    rw [List.mem_cons] at hu
    rcases hu with hu | hu
    · exact hu ▸ ⟨hne, hw⟩
    · exact ih u hu

theorem wordRunsOf_mem_chars {s : List Char} :
    ∀ w ∈ wordRunsOf s, ∀ c ∈ w, c ∈ s := by
  induction s using charRunInduction (p := isWordChar) with
  | h0 => simp [wordRunsOf, wordRunsGo]
  | h1 c s hc ih =>
    rw [wordRunsOf_cons_neg hc]
    intro u hu a ha
    exact List.mem_cons_of_mem c (ih u hu a ha)
  | h2 w s hne hw hs ih =>
    rw [wordRunsOf_run_append hne hw hs]
    intro u hu a ha
    rw [List.mem_cons] at hu
    rcases hu with hu | hu
    · exact List.mem_append_left s (hu ▸ ha)
    · exact List.mem_append_right w (ih u hu a ha)

/-! ## Helper lemmas: article substitution -/

theorem subArticlesGo_word_append {w : List Char}
    (hw : ∀ c ∈ w, isWordChar c = true) :
    ∀ (run s : List Char),
      subArticlesGo run (w ++ s) = subArticlesGo (w.reverse ++ run) s := by
  induction w with
  | nil => intro run s; simp
  | cons c w ih =>
    intro run s
    have hc : isWordChar c = true := hw c (by simp)
    rw [List.cons_append, subArticlesGo, if_pos hc,
      ih (fun a ha => hw a (by simp [ha])) (c :: run) s]
    simp

theorem subArticles_cons_neg {c : Char} (hc : isWordChar c = false)
    (s : List Char) : subArticles (c :: s) = c :: subArticles s := by
  unfold subArticles
  rw [subArticlesGo, if_neg (by simp [hc])]
  simp [emitWordRun, articleWords]

theorem wordRunsOf_all_word {w : List Char} (hne : w ≠ [])
    (hw : ∀ c ∈ w, isWordChar c = true) : wordRunsOf w = [w] := by
  have h := wordRunsOf_run_append (s := []) hne hw (fun c h => by simp at h)
  rw [List.append_nil] at h
  rw [h]
  rfl

theorem subArticles_all_word {w : List Char}
    (hw : ∀ c ∈ w, isWordChar c = true) :
    subArticles w = emitWordRun w := by
  have h := subArticlesGo_word_append hw [] []
  rw [List.append_nil] at h
  unfold subArticles
  rw [h, subArticlesGo]
  simp

theorem subArticles_run_cons {w s : List Char} {c : Char}
    (hw : ∀ a ∈ w, isWordChar a = true) (hc : isWordChar c = false) :
    subArticles (w ++ c :: s) = emitWordRun w ++ c :: subArticles s := by
  unfold subArticles
  rw [subArticlesGo_word_append hw [] (c :: s), subArticlesGo,
    if_neg (by simp [hc])]
  simp

theorem wordRunsOf_subArticles (s : List Char) :
    wordRunsOf (subArticles s) =
      (wordRunsOf s).filter (fun w => decide (w ∉ articleWords)) := by
  induction s using charRunInduction (p := isWordChar) with
  | h0 =>
    simp [subArticles, subArticlesGo, wordRunsOf, wordRunsGo, emitWordRun,
      articleWords]
  | h1 c s hc ih =>
    rw [subArticles_cons_neg hc, wordRunsOf_cons_neg hc,
      wordRunsOf_cons_neg hc, ih]
  | h2 w s hne hw hs ih =>
    rw [wordRunsOf_run_append hne hw hs]
    match s, hs, ih with
    | [], _, _ =>
      rw [List.append_nil, subArticles_all_word hw]
      by_cases ha : w ∈ articleWords
      · rw [emitWordRun, if_pos ha, List.filter_cons_of_neg (by simp [ha])]
        have h0 : wordRunsOf [' '] = [] := by decide
        rw [h0]
        simp [wordRunsOf, wordRunsGo]
      · rw [emitWordRun, if_neg ha, List.filter_cons_of_pos (by simp [ha])]
        rw [wordRunsOf_all_word hne hw]
        rfl
    | c :: s', hs, ih =>
      have hc : isWordChar c = false := hs c rfl
      have h2 : subArticles (c :: s') = c :: subArticles s' :=
        subArticles_cons_neg hc s'
      have ih' : wordRunsOf (subArticles s') =
          (wordRunsOf s').filter (fun w => decide (w ∉ articleWords)) := by
        rw [← wordRunsOf_cons_neg hc (subArticles s'), ← h2, ih,
          wordRunsOf_cons_neg hc]
      rw [subArticles_run_cons hw hc, List.filter_cons]
      by_cases ha : w ∈ articleWords
      · rw [emitWordRun, if_pos ha, if_neg (by simp [ha])]
        have h1 : ([' '] : List Char) ++ c :: subArticles s' =
            ' ' :: c :: subArticles s' := rfl
        rw [h1, wordRunsOf_cons_neg (by decide), wordRunsOf_cons_neg hc, ih',
          wordRunsOf_cons_neg hc]
      · rw [emitWordRun, if_neg ha, if_pos (by simp [ha])]
        rw [wordRunsOf_run_append hne hw
          (fun a hha => by simp at hha; rw [← hha]; exact hc)]
        rw [wordRunsOf_cons_neg hc (subArticles s'), ih',
          wordRunsOf_cons_neg hc s']

/-! ## Helper lemmas: punctuation stripping -/

theorem stripPunct_cons (c : Char) (s : List Char) :
    stripPunct (c :: s) =
      (if !isWordChar c && !isSpaceChar c then ' ' else c) :: stripPunct s :=
  rfl

theorem stripPunct_chars {s : List Char} :
    ∀ c ∈ stripPunct s, isWordChar c = true ∨ isSpaceChar c = true := by
  intro c hc
  rw [stripPunct, List.mem_map] at hc
  obtain ⟨a, _, ha⟩ := hc
  by_cases hcond : (!isWordChar a && !isSpaceChar a) = true
  · rw [if_pos hcond] at ha
    right
    rw [← ha]
    decide
  · rw [if_neg hcond] at ha
    by_cases hw : isWordChar a = true
    · left
      rw [← ha]
      exact hw
    · right
      rw [← ha]
      rw [Bool.not_eq_true] at hw
      by_cases hsp : isSpaceChar a = true
      · exact hsp
      · rw [Bool.not_eq_true] at hsp
        exact absurd (by simp [hw, hsp]) hcond

theorem stripPunct_word_fixed {w : List Char}
    (hw : ∀ c ∈ w, isWordChar c = true) : stripPunct w = w := by
  rw [stripPunct]
  conv_rhs => rw [← List.map_id w]
  apply List.map_congr_left
  intro a ha
  simp [hw a ha]

theorem wordRunsOf_stripPunct (s : List Char) :
    wordRunsOf (stripPunct s) = wordRunsOf s := by
  induction s using charRunInduction (p := isWordChar) with
  | h0 => rfl
  | h1 c s hc ih =>
    rw [stripPunct_cons]
    by_cases hsp : isSpaceChar c = true
    · rw [if_neg (by simp [hsp])]
      rw [wordRunsOf_cons_neg hc, wordRunsOf_cons_neg hc, ih]
    · rw [Bool.not_eq_true] at hsp
      rw [if_pos (by simp [hc, hsp])]
      rw [wordRunsOf_cons_neg (by decide), wordRunsOf_cons_neg hc, ih]
  | h2 w s hne hw hs ih =>
    have h1 : stripPunct (w ++ s) = w ++ stripPunct s := by
      have h2 : stripPunct (w ++ s) = stripPunct w ++ stripPunct s := by
        simp [stripPunct]
      rw [h2, stripPunct_word_fixed hw]
    rw [h1, wordRunsOf_run_append hne hw ?_, wordRunsOf_run_append hne hw hs, ih]
    intro c hhead
    match s, hs, hhead with
    | a :: s', hs, hhead =>
      have ha : isWordChar a = false := hs a rfl
      rw [stripPunct_cons] at hhead
      simp only [List.head?_cons, Option.some_inj] at hhead
      rw [← hhead]
      by_cases hsp : isSpaceChar a = true
      · rw [if_neg (by simp [hsp])]
        exact ha
      · rw [Bool.not_eq_true] at hsp
        rw [if_pos (by simp [ha, hsp])]
        decide

/-! ## Helper lemmas: whitespace collapsing -/

theorem collapseWsGo_word_append {w : List Char} (hne : w ≠ [])
    (hw : ∀ c ∈ w, isWordChar c = true) :
    ∀ (b : Bool) (s : List Char),
      collapseWsGo b (w ++ s) = w ++ collapseWsGo false s := by
  induction w with
  | nil => exact absurd rfl hne
  | cons c w ih =>
    intro b s
    have hc : isWordChar c = true := hw c (by simp)
    have hcs : isSpaceChar c = false := isSpaceChar_eq_false_of_isWordChar hc
    rw [List.cons_append, collapseWsGo, if_neg (by simp [hcs])]
    match w, ih with
    | [], _ => rfl
    | c' :: w', ih =>
      rw [ih (by simp) (fun a ha => hw a (by simp [ha])) false s]
      rfl

theorem collapseWsGo_chars {s : List Char} :
    ∀ (b : Bool) (c : Char), c ∈ collapseWsGo b s →
      c = ' ' ∨ (c ∈ s ∧ isSpaceChar c = false) := by
  induction s with
  | nil => intro b c hc; simp [collapseWsGo] at hc
  | cons a s ih =>
    intro b c hc
    rw [collapseWsGo] at hc
    by_cases hsp : isSpaceChar a = true
    · rw [if_pos hsp] at hc
      by_cases hb : b
      · rw [if_pos hb] at hc
        rcases ih true c hc with h | h
        · exact Or.inl h
        · exact Or.inr ⟨List.mem_cons_of_mem a h.1, h.2⟩
      · rw [if_neg hb] at hc
        rcases List.mem_cons.mp hc with h | h
        · exact Or.inl h
        · rcases ih true c h with h' | h'
          · exact Or.inl h'
          · exact Or.inr ⟨List.mem_cons_of_mem a h'.1, h'.2⟩
    · rw [if_neg hsp] at hc
      rw [Bool.not_eq_true] at hsp
      rcases List.mem_cons.mp hc with h | h
      · exact Or.inr ⟨h ▸ List.mem_cons_self a s, h ▸ hsp⟩
      · rcases ih false c h with h' | h'
        · exact Or.inl h'
        · exact Or.inr ⟨List.mem_cons_of_mem a h'.1, h'.2⟩

/-- The no-two-adjacent-spaces relation. -/
def noDoubleSpace (a b : Char) : Prop :=
  ¬(isSpaceChar a = true ∧ isSpaceChar b = true)

theorem collapseWsGo_chain {s : List Char} :
    ∀ b : Bool,
      List.Chain' noDoubleSpace (collapseWsGo b s) ∧
      (b = true → ∀ c, (collapseWsGo b s).head? = some c →
        isSpaceChar c = false) := by
  induction s with
  | nil =>
    intro b
    refine ⟨by simp [collapseWsGo], ?_⟩
    intro _ c hc
    simp [collapseWsGo] at hc
  | cons a s ih =>
    intro b
    rw [collapseWsGo]
    by_cases hsp : isSpaceChar a = true
    · rw [if_pos hsp]
      by_cases hb : b
      · rw [if_pos hb]
        refine ⟨(ih true).1, ?_⟩
        intro _ c hc
        exact (ih true).2 rfl c hc
      · rw [if_neg hb]
        constructor
        · rw [List.chain'_cons']
          refine ⟨?_, (ih true).1⟩
          intro y hy
          intro hcon
          exact absurd ((ih true).2 rfl y hy) (by simp [hcon.2])
        · intro hbt
          exact absurd hbt hb
    · rw [if_neg hsp]
      rw [Bool.not_eq_true] at hsp
      constructor
      · rw [List.chain'_cons']
        refine ⟨?_, (ih false).1⟩
        intro y hy hcon
        rw [hsp] at hcon
        simp at hcon
      · intro _ c hc
        simp only [List.head?_cons, Option.some_inj] at hc
        rw [← hc]
        exact hsp

theorem wordRunsOf_collapseWsGo {s : List Char}
    (hws : ∀ c ∈ s, isWordChar c = true ∨ isSpaceChar c = true) :
    ∀ b : Bool, wordRunsOf (collapseWsGo b s) = wordRunsOf s := by
  induction s using charRunInduction (p := isWordChar) with
  | h0 => intro b; rfl
  | h1 c s hc ih =>
    intro b
    have hsp : isSpaceChar c = true := by
      rcases hws c (by simp) with h | h
      · rw [h] at hc; simp at hc
      · exact h
    rw [collapseWsGo, if_pos hsp]
    have ih' := ih (fun a ha => hws a (by simp [ha]))
    by_cases hb : b
    · rw [if_pos hb, ih' true, wordRunsOf_cons_neg hc]
    · rw [if_neg hb, wordRunsOf_cons_neg (by decide), ih' true,
        wordRunsOf_cons_neg hc]
  | h2 w s hne hw hs ih =>
    intro b
    have hws' : ∀ c ∈ s, isWordChar c = true ∨ isSpaceChar c = true :=
      fun a ha => hws a (List.mem_append_right w ha)
    rw [collapseWsGo_word_append hne hw b s,
      wordRunsOf_run_append hne hw ?_, wordRunsOf_run_append hne hw hs,
      ih hws' false]
    intro c hc
    match s, hs, hws', hc with
    | a :: s', hs, hws', hc =>
      have ha : isWordChar a = false := hs a rfl
      have hsp : isSpaceChar a = true := by
        rcases hws' a (by simp) with h | h
        · rw [h] at ha; simp at ha
        · exact h
      rw [collapseWsGo, if_pos hsp, if_neg (by simp)] at hc
      simp only [List.head?_cons, Option.some_inj] at hc
      rw [← hc]
      decide

/-! ## Helper lemmas: stripping -/

theorem isWordChar_eq_false_of_isSpaceChar {c : Char}
    (h : isSpaceChar c = true) : isWordChar c = false := by
  by_contra hw
  rw [Bool.not_eq_false] at hw
  rw [isSpaceChar_eq_false_of_isWordChar hw] at h
  exact Bool.false_ne_true h

theorem dropTrailing_cons (c : Char) (s : List Char) :
    dropTrailing (c :: s) =
      if dropTrailing s = [] ∧ isSpaceChar c = true then []
      else c :: dropTrailing s :=
  rfl

theorem dropTrailing_append (x y : List Char) :
    dropTrailing (x ++ y) =
      if dropTrailing y = [] then dropTrailing x else x ++ dropTrailing y := by
  induction x with
  | nil =>
    by_cases h : dropTrailing y = []
    · rw [if_pos h, List.nil_append, h]
      rfl
    · rw [if_neg h]
      simp
  | cons c x ih =>
    rw [List.cons_append, dropTrailing_cons, ih, dropTrailing_cons]
    by_cases h : dropTrailing y = []
    · rw [if_pos h, if_pos h]
    · have hne : (if dropTrailing y = [] then dropTrailing x
          else x ++ dropTrailing y) = x ++ dropTrailing y := if_neg h
      rw [hne, if_neg h,
        if_neg (by intro hcon; exact h (List.append_eq_nil.mp hcon.1).2)]
      rfl

theorem dropTrailing_prefix_self (s : List Char) : dropTrailing s <+: s := by
  induction s with
  | nil => exact List.prefix_refl []
  | cons c s ih =>
    rw [dropTrailing_cons]
    by_cases h : dropTrailing s = [] ∧ isSpaceChar c = true
    · rw [if_pos h]
      exact List.nil_prefix
    · rw [if_neg h]
      exact (List.prefix_cons_inj c).mpr ih

theorem dropTrailing_head? {s : List Char} {c : Char}
    (h : (dropTrailing s).head? = some c) : s.head? = some c := by
  match s, h with
  | a :: s', h =>
    rw [dropTrailing_cons] at h
    by_cases hc : dropTrailing s' = [] ∧ isSpaceChar a = true
    · rw [if_pos hc] at h
      simp at h
    · rw [if_neg hc] at h
      simpa using h

theorem dropTrailing_getLast_not_space {s : List Char} :
    ∀ c, (dropTrailing s).getLast? = some c → isSpaceChar c = false := by
  induction s with
  | nil => intro c hc; simp [dropTrailing] at hc
  | cons a s ih =>
    intro c hc
    rw [dropTrailing_cons] at hc
    by_cases h : dropTrailing s = [] ∧ isSpaceChar a = true
    · rw [if_pos h] at hc
      simp at hc
    · rw [if_neg h] at hc
      by_cases hnil : dropTrailing s = []
      · rw [hnil] at hc
        simp at hc
        rw [← hc]
        rcases Bool.eq_false_or_eq_true (isSpaceChar a) with hsp | hsp
        · exact absurd ⟨hnil, hsp⟩ h
        · exact hsp
      · have hx : (a :: dropTrailing s) = [a] ++ dropTrailing s := rfl
        rw [hx, List.getLast?_append_of_ne_nil _ hnil] at hc
        exact ih c hc

theorem dropTrailing_id {s : List Char}
    (h : ∀ c, s.getLast? = some c → isSpaceChar c = false) :
    dropTrailing s = s := by
  induction s with
  | nil => rfl
  | cons a s ih =>
    rw [dropTrailing_cons]
    by_cases hnil : s = []
    · subst hnil
      have ha : isSpaceChar a = false := h a rfl
      rw [if_neg (by simp [ha])]
      rfl
    · have hs : dropTrailing s = s := by
        apply ih
        intro c hc
        apply h
        have hx : (a :: s) = [a] ++ s := rfl
        rw [hx, List.getLast?_append_of_ne_nil _ hnil]
        exact hc
      rw [hs, if_neg (by simp [hnil])]

theorem wordRunsOf_dropTrailing (s : List Char) :
    wordRunsOf (dropTrailing s) = wordRunsOf s := by
  induction s using charRunInduction (p := isWordChar) with
  | h0 => rfl
  | h1 c s hc ih =>
    rw [dropTrailing_cons]
    by_cases h : dropTrailing s = [] ∧ isSpaceChar c = true
    · rw [if_pos h]
      rw [wordRunsOf_cons_neg hc, ← ih, h.1]
    · rw [if_neg h, wordRunsOf_cons_neg hc, wordRunsOf_cons_neg hc, ih]
  | h2 w s hne hw hs ih =>
    rw [dropTrailing_append]
    have hdw : dropTrailing w = w := by
      apply dropTrailing_id
      intro c hc
      exact isSpaceChar_eq_false_of_isWordChar
        (hw c (List.mem_of_mem_getLast? hc))
    by_cases h : dropTrailing s = []
    · rw [if_pos h, hdw, wordRunsOf_all_word hne hw,
        wordRunsOf_run_append hne hw hs, ← ih, h]
      rfl
    · rw [if_neg h, wordRunsOf_run_append hne hw ?_,
        wordRunsOf_run_append hne hw hs, ih]
      intro c hc
      exact hs c (dropTrailing_head? hc)

theorem wordRunsOf_dropWhileSpace (s : List Char) :
    wordRunsOf (s.dropWhile isSpaceChar) = wordRunsOf s := by
  induction s with
  | nil => rfl
  | cons c s ih =>
    rw [List.dropWhile_cons]
    by_cases h : isSpaceChar c = true
    · rw [if_pos h, ih, wordRunsOf_cons_neg (isWordChar_eq_false_of_isSpaceChar h)]
    · rw [if_neg (by simp [h])]

theorem wordRunsOf_pyStrip (s : List Char) :
    wordRunsOf (pyStrip s) = wordRunsOf s := by
  rw [pyStrip, wordRunsOf_dropTrailing, wordRunsOf_dropWhileSpace]

theorem pyStrip_head_not_space {s : List Char} :
    ∀ c, (pyStrip s).head? = some c → isSpaceChar c = false := by
  intro c hc
  exact dropWhile_head_not _ c (dropTrailing_head? hc)

theorem pyStrip_getLast_not_space {s : List Char} :
    ∀ c, (pyStrip s).getLast? = some c → isSpaceChar c = false :=
  fun c hc => dropTrailing_getLast_not_space c hc

theorem pyStrip_sublist (s : List Char) : List.Sublist (pyStrip s) s :=
  (dropTrailing_prefix_self _).sublist.trans (List.dropWhile_suffix _).sublist

theorem pyStrip_chain {R : Char → Char → Prop} {s : List Char}
    (h : List.Chain' R s) : List.Chain' R (pyStrip s) :=
  List.Chain'.prefix (h.suffix (List.dropWhile_suffix _))
    (dropTrailing_prefix_self _)

theorem pyStrip_id {s : List Char}
    (hh : ∀ c, s.head? = some c → isSpaceChar c = false)
    (hl : ∀ c, s.getLast? = some c → isSpaceChar c = false) :
    pyStrip s = s := by
  rw [pyStrip]
  have hdw : s.dropWhile isSpaceChar = s := by
    match s, hh with
    | [], _ => rfl
    | c :: s', hh =>
      rw [List.dropWhile_cons, if_neg (by simp [hh c rfl])]
  rw [hdw, dropTrailing_id hl]

/-! ## Helper lemmas: joining words -/

theorem joinSp_cons_ne {ws : List (List Char)} (w : List Char)
    (h : ws ≠ []) : joinSp (w :: ws) = w ++ ' ' :: joinSp ws := by
  match ws, h with
  | w' :: ws', _ => rfl

theorem wordRunsOf_joinSp {ws : List (List Char)}
    (hne : ∀ w ∈ ws, w ≠ [])
    (hw : ∀ w ∈ ws, ∀ c ∈ w, isWordChar c = true) :
    wordRunsOf (joinSp ws) = ws := by
  induction ws with
  | nil => rfl
  | cons w ws ih =>
    match ws, ih with
    | [], _ =>
      show wordRunsOf (joinSp [w]) = [w]
      have h1 : joinSp [w] = w := rfl
      rw [h1, wordRunsOf_all_word (hne w (by simp)) (hw w (by simp))]
    | w' :: ws', ih =>
      rw [joinSp_cons_ne w (by simp)]
      rw [wordRunsOf_run_append (hne w (by simp)) (hw w (by simp))
        (fun c hc => by simp at hc; rw [← hc]; decide)]
      rw [wordRunsOf_cons_neg (by decide)]
      rw [ih (fun u hu => hne u (by simp [hu]))
        (fun u hu => hw u (by simp [hu]))]

theorem joinSp_chars {ws : List (List Char)} :
    ∀ c ∈ joinSp ws, (∃ w ∈ ws, c ∈ w) ∨ c = ' ' := by
  induction ws with
  | nil => intro c hc; simp [joinSp] at hc
  | cons w ws ih =>
    intro c hc
    match ws, ih with
    | [], _ =>
      left
      exact ⟨w, by simp, hc⟩
    | w' :: ws', ih =>
      rw [joinSp_cons_ne w (by simp)] at hc
      rcases List.mem_append.mp hc with h | h
      · exact Or.inl ⟨w, by simp, h⟩
      · rcases List.mem_cons.mp h with h | h
        · exact Or.inr h
        · rcases ih c h with ⟨u, hu, hcu⟩ | h'
          · exact Or.inl ⟨u, by simp [hu], hcu⟩
          · exact Or.inr h'

theorem joinSp_head {ws : List (List Char)} {c : Char}
    (hne : ∀ w ∈ ws, w ≠ [])
    (h : (joinSp ws).head? = some c) : ∃ w ∈ ws, w.head? = some c := by
  match ws, h with
  | [], h => simp [joinSp] at h
  | [w], h =>
    exact ⟨w, by simp, h⟩
  | w :: w' :: ws', h =>
    rw [joinSp_cons_ne w (by simp)] at h
    refine ⟨w, by simp, ?_⟩
    match w, hne w (by simp), h with
    | a :: w0, _, h => simpa using h

theorem joinSp_getLast {ws : List (List Char)} {c : Char}
    (hne : ∀ w ∈ ws, w ≠ [])
    (h : (joinSp ws).getLast? = some c) : ∃ w ∈ ws, w.getLast? = some c := by
  induction ws with
  | nil => simp [joinSp] at h
  | cons w ws ih =>
    match ws, ih with
    | [], _ => exact ⟨w, by simp, h⟩
    | w' :: ws', ih =>
      rw [joinSp_cons_ne w (by simp)] at h
      have hjne : joinSp (w' :: ws') ≠ [] := by
        have := hne w' (by simp)
        match w', this, ws' with
        | a :: w0, _, [] => simp [joinSp]
        | a :: w0, _, u :: us => rw [joinSp_cons_ne _ (by simp)]; simp
      rw [List.getLast?_append_of_ne_nil _ (by simp [hjne])] at h
      have h2 : (' ' :: joinSp (w' :: ws')).getLast? =
          (joinSp (w' :: ws')).getLast? := by
        have hx : (' ' :: joinSp (w' :: ws')) = [' '] ++ joinSp (w' :: ws') :=
          rfl
        rw [hx, List.getLast?_append_of_ne_nil _ hjne]
      rw [h2] at h
      obtain ⟨u, hu, hcu⟩ := ih (fun v hv => hne v (by simp [hv])) h
      exact ⟨u, by simp [hu], hcu⟩

/-! ## Helper lemmas: reconstruction of a canonical string from its runs -/

theorem recon_canonical (s : List Char)
    (hchars : ∀ c ∈ s, isWordChar c = true ∨ c = ' ')
    (hchain : List.Chain' noDoubleSpace s)
    (hlast : ∀ c, s.getLast? = some c → isSpaceChar c = false) :
    ((∀ c, s.head? = some c → isSpaceChar c = false) →
      s = joinSp (wordRunsOf s)) ∧
    (∀ c, s.head? = some c → isSpaceChar c = true →
      s = ' ' :: joinSp (wordRunsOf s)) := by
  induction s using charRunInduction (p := isWordChar) with
  | h0 =>
    refine ⟨fun _ => rfl, ?_⟩
    intro c hc
    simp at hc
  | h1 c s hc ih =>
    have hcsp : c = ' ' := by
      rcases hchars c (by simp) with h | h
      · rw [h] at hc; exact absurd hc (by simp)
      · exact h
    subst hcsp
    constructor
    · intro hh
      have := hh ' ' rfl
      simp [isSpaceChar] at this
    · intro c' hc' _
      simp only [List.head?_cons, Option.some_inj] at hc'
      subst hc'
      rw [wordRunsOf_cons_neg hc]
      match s, hchars, hchain, hlast, ih with
      | [], _, _, hlast, _ =>
        have := hlast ' ' rfl
        simp [isSpaceChar] at this
      | a :: s', hchars, hchain, hlast, ih =>
        have hRchain := (List.chain'_cons'.mp hchain)
        have hasp : isSpaceChar a = false := by
          rcases Bool.eq_false_or_eq_true (isSpaceChar a) with h | h
          · exact absurd ⟨by simp [isSpaceChar], h⟩ (hRchain.1 a rfl)
          · exact h
        have ihs := ih (fun x hx => hchars x (by simp [hx])) hRchain.2
          (fun x hx => hlast x (by
            have hy : (' ' :: a :: s') = [' '] ++ (a :: s') := rfl
            rw [hy, List.getLast?_append_of_ne_nil _ (by simp)]
            exact hx))
        have h1 := ihs.1 (fun x hx => by
          simp only [List.head?_cons, Option.some_inj] at hx
          rw [← hx]
          exact hasp)
        rw [← h1]
  | h2 w s hne hw hs ih =>
    have hhw : ∀ c', (w ++ s).head? = some c' → isSpaceChar c' = false := by
      match w, hne, hw with
      | b :: w0, _, hw =>
        intro c' hc'
        simp only [List.cons_append, List.head?_cons, Option.some_inj] at hc'
        rw [← hc']
        exact isSpaceChar_eq_false_of_isWordChar (hw b (by simp))
    rw [wordRunsOf_run_append hne hw hs]
    constructor
    · intro _
      match s, hs, hchars, hchain, hlast, ih with
      | [], _, _, _, _, _ =>
        have h0 : wordRunsOf ([] : List Char) = [] := rfl
        rw [h0]
        simp [joinSp]
      | a :: s', hs, hchars, hchain, hlast, ih =>
        have ha : isWordChar a = false := hs a rfl
        have hasp : a = ' ' := by
          rcases hchars a (List.mem_append_right w (by simp)) with h | h
          · rw [h] at ha; exact absurd ha (by simp)
          · exact h
        subst hasp
        have hsne : (' ' :: s') ≠ ([] : List Char) := by simp
        have ihs := ih (fun x hx => hchars x (List.mem_append_right w hx))
          (hchain.suffix ⟨w, rfl⟩)
          (fun x hx => hlast x (by
            rw [List.getLast?_append_of_ne_nil _ hsne]
            exact hx))
        have h2 := ihs.2 ' ' rfl (by simp [isSpaceChar])
        have hrne : wordRunsOf (' ' :: s') ≠ [] := by
          intro hr
          rw [hr] at h2
          have : (' ' :: s') = [' '] := h2
          have hl := hlast ' ' (by
            rw [List.getLast?_append_of_ne_nil _ hsne, this]
            rfl)
          simp [isSpaceChar] at hl
        rw [joinSp_cons_ne w hrne, ← h2]
    · intro c' hc' hsp'
      rw [hhw c' hc'] at hsp'
      exact absurd hsp' (by simp)

/-! ## Helper lemmas: `_normalise` fixes canonical strings -/

theorem asciiLower_joinSp {ws : List (List Char)}
    (hfix : ∀ w ∈ ws, ∀ c ∈ w, asciiLowerChar c = c) :
    asciiLower (joinSp ws) = joinSp ws := by
  rw [asciiLower]
  conv_rhs => rw [← List.map_id (joinSp ws)]
  apply List.map_congr_left
  intro c hc
  rcases joinSp_chars c hc with ⟨w, hw, hcw⟩ | h
  · exact hfix w hw c hcw
  · rw [h]
    decide

theorem pyStrip_joinSp {ws : List (List Char)}
    (hne : ∀ w ∈ ws, w ≠ [])
    (hw : ∀ w ∈ ws, ∀ c ∈ w, isWordChar c = true) :
    pyStrip (joinSp ws) = joinSp ws := by
  apply pyStrip_id
  · intro c hc
    obtain ⟨w, hwm, hch⟩ := joinSp_head hne hc
    exact isSpaceChar_eq_false_of_isWordChar
      (hw w hwm c (List.mem_of_mem_head? hch))
  · intro c hc
    obtain ⟨w, hwm, hch⟩ := joinSp_getLast hne hc
    exact isSpaceChar_eq_false_of_isWordChar
      (hw w hwm c (List.mem_of_mem_getLast? hch))

theorem subArticles_joinSp {ws : List (List Char)}
    (hne : ∀ w ∈ ws, w ≠ [])
    (hw : ∀ w ∈ ws, ∀ c ∈ w, isWordChar c = true)
    (hart : ∀ w ∈ ws, w ∉ articleWords) :
    subArticles (joinSp ws) = joinSp ws := by
  induction ws with
  | nil => rfl
  | cons w ws ih =>
    match ws, ih with
    | [], _ =>
      show subArticles (joinSp [w]) = joinSp [w]
      have h1 : joinSp [w] = w := rfl
      rw [h1, subArticles_all_word (hw w (by simp)), emitWordRun,
        if_neg (hart w (by simp))]
    | w' :: ws', ih =>
      rw [joinSp_cons_ne w (by simp), subArticles_run_cons (hw w (by simp))
        (by decide), emitWordRun, if_neg (hart w (by simp)),
        ih (fun u hu => hne u (by simp [hu]))
          (fun u hu => hw u (by simp [hu]))
          (fun u hu => hart u (by simp [hu]))]

theorem stripPunct_joinSp {ws : List (List Char)}
    (hw : ∀ w ∈ ws, ∀ c ∈ w, isWordChar c = true) :
    stripPunct (joinSp ws) = joinSp ws := by
  rw [stripPunct]
  conv_rhs => rw [← List.map_id (joinSp ws)]
  apply List.map_congr_left
  intro c hc
  rcases joinSp_chars c hc with ⟨w, hwm, hcw⟩ | h
  · simp [hw w hwm c hcw]
  · rw [h]
    decide

theorem collapseWsGo_joinSp {ws : List (List Char)}
    (hne : ∀ w ∈ ws, w ≠ [])
    (hw : ∀ w ∈ ws, ∀ c ∈ w, isWordChar c = true) :
    ∀ b, collapseWsGo b (joinSp ws) = joinSp ws := by
  induction ws with
  | nil => intro b; rfl
  | cons w ws ih =>
    intro b
    match ws, ih with
    | [], _ =>
      show collapseWsGo b (joinSp [w]) = joinSp [w]
      have h1 : joinSp [w] = w := rfl
      have h2 := collapseWsGo_word_append (hne w (by simp)) (hw w (by simp))
        b []
      rw [List.append_nil] at h2
      rw [h1, h2]
      show w ++ collapseWsGo false [] = w
      rw [show collapseWsGo false [] = [] from rfl, List.append_nil]
    | w' :: ws', ih =>
      rw [joinSp_cons_ne w (by simp)]
      rw [collapseWsGo_word_append (hne w (by simp)) (hw w (by simp)) b _]
      have h3 : collapseWsGo false (' ' :: joinSp (w' :: ws')) =
          ' ' :: collapseWsGo true (joinSp (w' :: ws')) := by
        rw [collapseWsGo, if_pos (by decide), if_neg (by simp)]
      rw [h3, ih (fun u hu => hne u (by simp [hu]))
        (fun u hu => hw u (by simp [hu])) true]

theorem normalise_fixes_canonical {ws : List (List Char)}
    (hne : ∀ w ∈ ws, w ≠ [])
    (hw : ∀ w ∈ ws, ∀ c ∈ w, isWordChar c = true)
    (hart : ∀ w ∈ ws, w ∉ articleWords)
    (hfix : ∀ w ∈ ws, ∀ c ∈ w, asciiLowerChar c = c) :
    normalise (joinSp ws) = joinSp ws := by
  rw [normalise, asciiLower_joinSp hfix, pyStrip_joinSp hne hw,
    subArticles_joinSp hne hw hart, stripPunct_joinSp hw, collapseWs,
    collapseWsGo_joinSp hne hw false, pyStrip_joinSp hne hw]

/-! ## `_normalise`: canonical form -/

theorem wordRunsOf_normalise (t : List Char) :
    wordRunsOf (normalise t) =
      (wordRunsOf (asciiLower t)).filter fun w => decide (w ∉ articleWords) := by
  rw [normalise, wordRunsOf_pyStrip, collapseWs,
    wordRunsOf_collapseWsGo (fun c hc => stripPunct_chars c hc) false,
    wordRunsOf_stripPunct, wordRunsOf_subArticles, wordRunsOf_pyStrip]

theorem normalise_chars (t : List Char) :
    ∀ c ∈ normalise t, isWordChar c = true ∨ c = ' ' := by
  intro c hc
  have hc3 := (pyStrip_sublist _).mem hc
  rw [collapseWs] at hc3
  rcases collapseWsGo_chars false c hc3 with h | ⟨hmem, hnsp⟩
  · exact Or.inr h
  · rcases stripPunct_chars c hmem with h | h
    · exact Or.inl h
    · rw [h] at hnsp
      exact absurd hnsp (by simp)

theorem normalise_eq_joinSp (t : List Char) :
    normalise t =
      joinSp ((wordRunsOf (asciiLower t)).filter
        fun w => decide (w ∉ articleWords)) := by
  have hchain : List.Chain' noDoubleSpace (normalise t) := by
    rw [normalise]
    exact pyStrip_chain (collapseWsGo_chain false).1
  have h := (recon_canonical (normalise t) (normalise_chars t) hchain
    (fun c hc => pyStrip_getLast_not_space c hc)).1
    (fun c hc => pyStrip_head_not_space c hc)
  rw [wordRunsOf_normalise] at h
  exact h

/-! ## C9 — idempotence of `_normalise` -/

/-- C9: text normalisation is idempotent — `normalise (normalise s) =
normalise s` for every string.  (The code's `_normalise` lowercases, strips
*all* word-boundary occurrences of the articles the/a/an, strips
punctuation, and collapses whitespace; its output is a single-spaced list of
lowercase non-article word tokens, on which every stage acts as the
identity.) -/
theorem c9_normalise_idempotent (s : List Char) :
    normalise (normalise s) = normalise s := by
  have hF := normalise_eq_joinSp s
  set F := (wordRunsOf (asciiLower s)).filter
    (fun w => decide (w ∉ articleWords)) with hFdef
  have hsub : ∀ w ∈ F, w ∈ wordRunsOf (asciiLower s) :=
    fun w hw => List.mem_of_mem_filter hw
  have hne : ∀ w ∈ F, w ≠ [] :=
    fun w hw => (wordRunsOf_words w (hsub w hw)).1
  have hw : ∀ w ∈ F, ∀ c ∈ w, isWordChar c = true :=
    fun w hwm => (wordRunsOf_words w (hsub w hwm)).2
  have hart : ∀ w ∈ F, w ∉ articleWords := by
    intro w hwm
    have := List.of_mem_filter hwm
    simpa using this
  have hfix : ∀ w ∈ F, ∀ c ∈ w, asciiLowerChar c = c := by
    intro w hwm c hcw
    have hcs : c ∈ asciiLower s :=
      wordRunsOf_mem_chars w (hsub w hwm) c hcw
    rw [asciiLower, List.mem_map] at hcs
    obtain ⟨c0, _, hc0⟩ := hcs
    rw [← hc0]
    exact asciiLowerChar_idem c0
  rw [hF, normalise_fixes_canonical hne hw hart hfix]

/-! ## Helper lemmas: stripping commutes with the pipeline -/

theorem map_dropTrailing (f : Char → Char)
    (hf : ∀ c, isSpaceChar (f c) = isSpaceChar c) (s : List Char) :
    (dropTrailing s).map f = dropTrailing (s.map f) := by
  induction s with
  | nil => rfl
  | cons c s ih =>
    rw [List.map_cons, dropTrailing_cons, dropTrailing_cons, ← ih]
    by_cases h : dropTrailing s = [] ∧ isSpaceChar c = true
    · rw [if_pos h, if_pos (by rw [hf, h.1]; simp [h.2])]
      rfl
    · rw [if_neg h, if_neg ?_]
      · rfl
      · intro hcon
        rw [hf] at hcon
        rw [List.map_eq_nil_iff] at hcon
        exact h ⟨hcon.1, hcon.2⟩

theorem asciiLower_pyStrip (s : List Char) :
    asciiLower (pyStrip s) = pyStrip (asciiLower s) := by
  rw [pyStrip, pyStrip, asciiLower, asciiLower,
    map_dropTrailing _ isSpaceChar_asciiLowerChar,
    List.dropWhile_map]
  have h : (isSpaceChar ∘ asciiLowerChar) = isSpaceChar := by
    funext c
    exact isSpaceChar_asciiLowerChar c
  rw [h]

theorem pyStrip_idem (s : List Char) : pyStrip (pyStrip s) = pyStrip s :=
  pyStrip_id (fun c hc => pyStrip_head_not_space c hc)
    (fun c hc => pyStrip_getLast_not_space c hc)

theorem normalise_pyStrip (s : List Char) :
    normalise (pyStrip s) = normalise s := by
  rw [normalise, normalise, asciiLower_pyStrip, pyStrip_idem]

/-! ## Helper lemmas: token sets -/

theorem subsetB_iff {xs ys : List (List Char)} :
    subsetB xs ys = true ↔ xs ⊆ ys := by
  rw [subsetB, List.all_eq_true, List.subset_def]
  constructor
  · intro h a ha
    have := h a ha
    rw [List.contains, List.elem_iff] at this
    exact this
  · intro h a ha
    rw [List.contains, List.elem_iff]
    exact h ha

theorem keyTokens_eq_nil {u : List Char}
    (h : ∀ tok ∈ splitWs u, tok ∈ noiseWords ∨ tok.length ≤ 1) :
    keyTokens u = [] := by
  rw [keyTokens, List.filter_eq_nil_iff]
  intro t ht
  have ht1 := List.mem_of_mem_filter ht
  have ht2 := List.of_mem_filter ht
  rcases h t ht1 with hn | hl
  · rw [List.contains, (List.elem_iff).mpr hn] at ht2
    simp at ht2
  · simp
    omega

theorem tier2_of_empty_key {student correct : List Char}
    (h : keyTokens (unifySpelling (normalise correct)) = []) :
    tier2TokenMatch student correct = true := by
  simp only [tier2TokenMatch]
  rw [if_pos h]

/-! ## C4 — the token-set grading tier -/

/-- C4 counterexample: the spec's "iff" does not hold on the code.  For
student `"cat"` against canonical answer `"cat dog"`, the spec's condition
(pre-expansion student key set ⊆ pre-expansion correct key set, the "vice
versa" disjunct) is satisfied, yet `_tier2_token_match` returns incorrect:
the code tests `correct_key ⊆ student_expanded ∨ correct_expanded ⊆
student_expanded` — both disjuncts compare against the *student* side. -/
theorem c4_token_tier_counterexample :
    tier2TokenMatch ("cat".toList) ("cat dog".toList) = false ∧
    specTier2Condition ("cat".toList) ("cat dog".toList) = true := by decide

/-- C4 (amended): the token-set tier's verdict is correct iff the
pre-expansion correct-answer key token set is a subset of the *expanded
student* key token set (the second disjunct of the code,
`correct_expanded ⊆ student_expanded`, is subsumed because
`correct_key ⊆ correct_expanded`; an empty correct key set is degenerately
a subset of everything, matching the code's early `return True`); in
particular, with no RAG client,
`grade("short_answer", "Food and shelter", "Food, Shelter")` is correct and
`grade("short_answer", "Honesty, Integrity", "Understanding, Empathy")` is
incorrect. -/
theorem c4_token_tier_characterisation :
    (∀ student correct : List Char,
      tier2TokenMatch student correct = true ↔
        keyTokens (unifySpelling (normalise correct)) ⊆
          expandTokens (keyTokens (unifySpelling (normalise student)))) ∧
    gradeAnswer ("short_answer".toList) ("Food and shelter".toList)
      (some ("Food, Shelter".toList)) [] none = true ∧
    gradeAnswer ("short_answer".toList) ("Honesty, Integrity".toList)
      (some ("Understanding, Empathy".toList)) [] none = false := by
  refine ⟨?_, by decide, by decide⟩
  intro student correct
  simp only [tier2TokenMatch]
  by_cases hk : keyTokens (unifySpelling (normalise correct)) = []
  · rw [if_pos hk, hk]
    simp
  · rw [if_neg hk]
    constructor
    · intro h
      rw [Bool.or_eq_true] at h
      rcases h with h1 | h2
      · exact subsetB_iff.mp h1
      · exact List.Subset.trans (List.subset_append_left _ _)
          (subsetB_iff.mp h2)
    · intro h
      rw [Bool.or_eq_true]
      exact Or.inl (subsetB_iff.mpr h)

/-! ## C10 — all-noise canonical answers -/

/-- C10 counterexample: the claim says *every non-empty* student answer is
marked correct when the canonical answer's key token set is empty, but a
whitespace-only answer — a non-empty string — is graded incorrect:
`grade_answer` strips the student answer and returns `False` when the strip
leaves nothing, before any tier runs. -/
theorem c10_counterexample :
    gradeAnswer ("short_answer".toList) (" ".toList) (some ("is".toList))
      [] none = false ∧
    (" ".toList : List Char) ≠ [] ∧
    (∀ tok ∈ splitWs (unifySpelling (normalise ("is".toList))),
      tok ∈ noiseWords ∨ tok.length ≤ 1) := by decide

/-- C10 (amended): if every token of the canonical correct answer is a
stop-word or has length ≤ 1 after normalisation and spelling unification
(so the correct-answer key token set is empty), the token-set tier returns
correct, and `grade_answer` marks every student answer containing a
non-whitespace character correct for non-MCQ questions. -/
theorem c10_empty_key_marks_correct (questionType student correct
      questionText : List Char)
    (hqt : questionType ≠ "mcq".toList)
    (hkey : ∀ tok ∈ splitWs (unifySpelling (normalise correct)),
      tok ∈ noiseWords ∨ tok.length ≤ 1)
    (hstud : pyStrip student ≠ []) :
    tier2TokenMatch student correct = true ∧
    gradeAnswer questionType student (some correct) questionText none =
      true := by
  have hkeyNil : keyTokens (unifySpelling (normalise correct)) = [] :=
    keyTokens_eq_nil hkey
  have hkeyNil' :
      keyTokens (unifySpelling (normalise (pyStrip correct))) = [] := by
    rw [normalise_pyStrip]
    exact hkeyNil
  refine ⟨tier2_of_empty_key hkeyNil, ?_⟩
  simp only [gradeAnswer]
  rw [if_neg (by simpa using hstud), if_neg hqt]
  by_cases h1 : tier1NormalisedMatch (pyStrip student) (pyStrip correct) = true
  · rw [if_pos h1]
  · rw [if_neg h1, if_pos (tier2_of_empty_key hkeyNil')]

/-- Witness for C10 (amended) at `correct = "is"`, `student = "zebra"`. -/
theorem c10_empty_key_marks_correct_witness :
    tier2TokenMatch ("zebra".toList) ("is".toList) = true ∧
    gradeAnswer ("short_answer".toList) ("zebra".toList)
      (some ("is".toList)) [] none = true :=
  c10_empty_key_marks_correct ("short_answer".toList) ("zebra".toList)
    ("is".toList) [] (by decide) (by decide) (by decide)

/-! ## Helper lemmas: the practice-session step -/

theorem submitPracticeAnswer_progress {c : AnswerCall} {w w' : PracticeWorld}
    (h : submitPracticeAnswer c w = .ok w') : w'.progress = w.progress := by
  unfold submitPracticeAnswer at h
  by_cases h1 : w.session.status ≠ PracticeStatus.inProgress
  · rw [if_pos h1] at h
    exact absurd h (by simp)
  · rw [if_neg h1] at h
    by_cases h2 : c.answerText.getD [] = []
    · rw [if_pos h2] at h
      exact absurd h (by simp)
    · rw [if_neg h2] at h
      simp only [Except.ok.injEq] at h
      rw [← h]

theorem stepAnswer_progress (c : AnswerCall) (w : PracticeWorld) :
    (stepAnswer c w).progress = w.progress := by
  rw [stepAnswer]
  match hs : submitPracticeAnswer c w with
  | .ok w' => exact submitPracticeAnswer_progress hs
  | .error _ => rfl

/-- The inductive invariant of one session under `answer` calls. -/
def sessionStepInvariant (w : PracticeWorld) : Prop :=
  0 ≤ w.session.correctCount ∧
  w.session.correctCount ≤ w.session.answeredCount ∧
  ((w.session.status = PracticeStatus.inProgress ∧
      w.session.answeredCount < w.session.totalQuestions) ∨
    (w.session.status = PracticeStatus.completed ∧
      w.session.answeredCount = w.session.totalQuestions))

theorem stepAnswer_invariant (c : AnswerCall) (w : PracticeWorld)
    (h : sessionStepInvariant w) : sessionStepInvariant (stepAnswer c w) := by
  obtain ⟨hc0, hca, hst⟩ := h
  rw [stepAnswer]
  match hs : submitPracticeAnswer c w with
  | .error _ => exact ⟨hc0, hca, hst⟩
  | .ok w' =>
    unfold submitPracticeAnswer at hs
    by_cases h1 : w.session.status ≠ PracticeStatus.inProgress
    · rw [if_pos h1] at hs
      exact absurd hs (by simp)
    · rw [if_neg h1] at hs
      rw [not_not] at h1
      have hlt : w.session.answeredCount < w.session.totalQuestions := by
        rcases hst with ⟨_, hlt⟩ | ⟨hcomp, _⟩
        · exact hlt
        · rw [h1] at hcomp
          exact absurd hcomp (by simp)
      by_cases h2 : c.answerText.getD [] = []
      · rw [if_pos h2] at hs
        exact absurd hs (by simp)
      · rw [if_neg h2] at hs
        simp only [Except.ok.injEq] at hs
        rw [← hs]
        refine ⟨by positivity, ?_, ?_⟩
        · by_cases hcor : c.grade.isCorrect = some true
          · simp only [if_pos hcor]
            omega
          · simp only [if_neg hcor]
            omega
        · by_cases hfin : w.session.answeredCount + 1 ≥ w.session.totalQuestions
          · right
            simp only [if_pos hfin]
            refine ⟨by trivial, by omega⟩
          · left
            simp only [if_neg hfin]
            exact ⟨h1, by omega⟩

theorem runAnswers_invariant (calls : List AnswerCall) (w : PracticeWorld)
    (h : sessionStepInvariant w) : sessionStepInvariant (runAnswers calls w) := by
  induction calls generalizing w with
  | nil => exact h
  | cons c calls ih =>
    rw [runAnswers, List.foldl_cons]
    exact ih (stepAnswer c w) (stepAnswer_invariant c w h)

/-! ## C1 — session counter invariants -/

/-- C1 counterexample: `question_count` is not validated, so a session can
start with `total_questions = 0`; it is created `IN_PROGRESS` even though
`answered_count` (0) already equals the quota — so the transition to
`COMPLETED` does not happen "exactly when `answered_count ==
total_questions`" — and the first `answer` call pushes `answered_count` to
1, *exceeding* `total_questions`. -/
theorem c1_zero_quota_counterexample :
    (freshWorld 0 none).session.answeredCount =
      (freshWorld 0 none).session.totalQuestions ∧
    (freshWorld 0 none).session.status = PracticeStatus.inProgress ∧
    (stepAnswer demoAnswerCall (freshWorld 0 none)).session.answeredCount >
      (stepAnswer demoAnswerCall (freshWorld 0 none)).session.totalQuestions ∧
    (stepAnswer demoAnswerCall (freshWorld 0 none)).session.status =
      PracticeStatus.completed := by
  refine ⟨by decide, by decide, by decide, by decide⟩

/-- C1 (amended): for every practice session started with a *positive*
question quota, after any sequence of `answer` calls, `answered_count`
never exceeds `total_questions`, `correct_count` never exceeds
`answered_count`, and the session's status is `COMPLETED` exactly when
`answered_count` has reached `total_questions`, never before. -/
theorem c1_session_invariant (calls : List AnswerCall) (total : ℤ)
    (subject : Option (List Char)) (htot : 1 ≤ total) :
    (runAnswers calls (freshWorld total subject)).session.answeredCount ≤
      (runAnswers calls (freshWorld total subject)).session.totalQuestions ∧
    (runAnswers calls (freshWorld total subject)).session.correctCount ≤
      (runAnswers calls (freshWorld total subject)).session.answeredCount ∧
    ((runAnswers calls (freshWorld total subject)).session.status =
        PracticeStatus.completed ↔
      (runAnswers calls (freshWorld total subject)).session.answeredCount =
        (runAnswers calls (freshWorld total subject)).session.totalQuestions) := by
  have hinit : sessionStepInvariant (freshWorld total subject) := by
    refine ⟨le_refl 0, le_refl 0, Or.inl ⟨rfl, ?_⟩⟩
    simpa using htot
  have hinv := runAnswers_invariant calls _ hinit
  obtain ⟨hc0, hca, hst⟩ := hinv
  refine ⟨?_, hca, ?_⟩
  · rcases hst with ⟨_, h⟩ | ⟨_, h⟩ <;> omega
  · constructor
    · intro hcomp
      rcases hst with ⟨hip, _⟩ | ⟨_, h⟩
      · rw [hip] at hcomp
        exact absurd hcomp (by simp)
      · exact h
    · intro heq
      rcases hst with ⟨_, hlt⟩ | ⟨hcomp, _⟩
      · omega
      · exact hcomp

/-- Witness for C1 (amended): a two-question session given one correct
answer. -/
theorem c1_session_invariant_witness :
    (runAnswers [demoAnswerCall] (freshWorld 2 none)).session.answeredCount ≤
      (runAnswers [demoAnswerCall] (freshWorld 2 none)).session.totalQuestions ∧
    (runAnswers [demoAnswerCall] (freshWorld 2 none)).session.correctCount ≤
      (runAnswers [demoAnswerCall] (freshWorld 2 none)).session.answeredCount ∧
    ((runAnswers [demoAnswerCall] (freshWorld 2 none)).session.status =
        PracticeStatus.completed ↔
      (runAnswers [demoAnswerCall] (freshWorld 2 none)).session.answeredCount =
        (runAnswers [demoAnswerCall] (freshWorld 2 none)).session.totalQuestions) :=
  c1_session_invariant [demoAnswerCall] 2 none (by norm_num)

/-! ## Helper lemmas: aggregation sums -/

/-- The sum of the per-topic `total` tallies. -/
def talliesTotal (ts : List (List Char × ℤ × ℤ)) : ℤ :=
  (ts.map fun e => e.2.2).sum

theorem talliesTotal_bumpTally (ts : List (List Char × ℤ × ℤ))
    (name : List Char) (b : Bool) :
    talliesTotal (bumpTally ts name b) = talliesTotal ts + 1 := by
  induction ts with
  | nil => simp [bumpTally, talliesTotal]
  | cons e ts ih =>
    obtain ⟨k, cnt⟩ := e
    rw [bumpTally]
    by_cases h : k = name
    · rw [if_pos h]
      simp only [talliesTotal, List.map_cons, List.sum_cons]
      ring
    · rw [if_neg h]
      simp only [talliesTotal, List.map_cons, List.sum_cons] at ih ⊢
      rw [ih]
      ring

theorem talliesTotal_foldl (answers : List AnswerRec)
    (subject : Option (List Char)) :
    ∀ ts : List (List Char × ℤ × ℤ),
      talliesTotal (answers.foldl
        (fun acc a => bumpTally acc (resolveTopicName subject a)
          (a.isCorrect = some true)) ts) =
      talliesTotal ts + answers.length := by
  induction answers with
  | nil => intro ts; simp
  | cons a answers ih =>
    intro ts
    rw [List.foldl_cons, ih, talliesTotal_bumpTally]
    simp
    ring

theorem talliesTotal_sessionTallies (subject : Option (List Char))
    (answers : List AnswerRec) :
    talliesTotal (sessionTallies subject answers) = answers.length := by
  rw [sessionTallies, talliesTotal_foldl]
  simp [talliesTotal]

theorem totalQuestionsSum_upsert (now : ℚ) (ps : List (List Char × ProgressRec))
    (name : List Char) (c t : ℤ) :
    totalQuestionsSum (upsertProgress now ps name c t) =
      totalQuestionsSum ps + t := by
  induction ps with
  | nil => simp [upsertProgress, totalQuestionsSum]
  | cons e ps ih =>
    obtain ⟨k, p⟩ := e
    rw [upsertProgress]
    by_cases h : k = name
    · rw [if_pos h]
      simp only [totalQuestionsSum, List.map_cons, List.sum_cons]
      ring
    · rw [if_neg h]
      simp only [totalQuestionsSum, List.map_cons, List.sum_cons] at ih ⊢
      rw [ih]
      ring

theorem totalQuestionsSum_foldl_upsert (now : ℚ)
    (ts : List (List Char × ℤ × ℤ)) :
    ∀ ps : List (List Char × ProgressRec),
      totalQuestionsSum (ts.foldl
        (fun acc e => upsertProgress now acc e.1 e.2.1 e.2.2) ps) =
      totalQuestionsSum ps + talliesTotal ts := by
  induction ts with
  | nil => intro ps; simp [talliesTotal]
  | cons e ts ih =>
    intro ps
    rw [List.foldl_cons, ih, totalQuestionsSum_upsert]
    simp only [talliesTotal, List.map_cons, List.sum_cons]
    ring

theorem totalQuestionsSum_updateProgress (s : SessionRec)
    (ps : List (List Char × ProgressRec)) (now : ℚ) :
    totalQuestionsSum (updateProgressFromSession s ps now) =
      totalQuestionsSum ps + s.answers.length := by
  rw [updateProgressFromSession]
  by_cases h : s.answers = []
  · rw [if_pos h, h]
    simp
  · rw [if_neg h, totalQuestionsSum_foldl_upsert,
      talliesTotal_sessionTallies]

/-! ## C3 — when the Progress Aggregator runs -/

/-- A concrete `answer` call that implicitly completes a one-question
session. -/
def c3DemoCall : AnswerCall :=
  { now := 5
    questionText := "Name a mammal.".toList
    answerText := some ("a whale".toList)
    grade := { isCorrect := some true, score := 1 }
    hasDbQuestion := false
    questionTopicName := none }

/-- C3 counterexample: an `answer` call that implicitly completes the
session (answered = total = 1, status becomes `COMPLETED`) leaves the
progress rows untouched — and in particular *not* equal to what running
the aggregator on the completed session would produce.
`submit_practice_answer` never calls `_update_progress_from_session`. -/
theorem c3_implicit_completion_counterexample :
    (stepAnswer c3DemoCall (freshWorld 1 (some ("Science".toList)))).session.status =
      PracticeStatus.completed ∧
    (stepAnswer c3DemoCall (freshWorld 1 (some ("Science".toList)))).session.answeredCount =
      (stepAnswer c3DemoCall (freshWorld 1 (some ("Science".toList)))).session.totalQuestions ∧
    (stepAnswer c3DemoCall (freshWorld 1 (some ("Science".toList)))).progress = [] ∧
    updateProgressFromSession
        (stepAnswer c3DemoCall (freshWorld 1 (some ("Science".toList)))).session
        (stepAnswer c3DemoCall (freshWorld 1 (some ("Science".toList)))).progress
        5 ≠ [] := by
  refine ⟨by decide, by decide, by decide, by decide⟩

/-- C3 (amended): the Progress Aggregator runs only on the explicit
`complete` endpoint.  An `answer` call — including one that implicitly
completes the session — never changes any Progress row; an explicit
`complete` call (from any state) runs the aggregator over the session's
answers, adding each answer into its topic's counters (the total-questions
counters grow by exactly the number of answers). -/
theorem c3_aggregation_only_on_explicit_complete :
    (∀ (c : AnswerCall) (w : PracticeWorld),
      (stepAnswer c w).progress = w.progress) ∧
    (∀ (t : ℚ) (w : PracticeWorld),
      (completePracticeSession t w).progress =
        updateProgressFromSession (completePracticeSession t w).session
          w.progress t ∧
      totalQuestionsSum (completePracticeSession t w).progress =
        totalQuestionsSum w.progress + w.session.answers.length) := by
  refine ⟨stepAnswer_progress, ?_⟩
  intro t w
  refine ⟨rfl, ?_⟩
  rw [completePracticeSession]
  simp only
  rw [totalQuestionsSum_updateProgress]

/-! ## C2 — repeat `complete` double-counts progress -/

/-- A concrete already-`COMPLETED` session with one correct answer whose
progress has not been aggregated yet. -/
def c2DemoWorld : PracticeWorld :=
  { session :=
      { status := .completed
        totalQuestions := 1
        answeredCount := 1
        correctCount := 1
        completedAt := some 1
        answers :=
          [{ questionText := "Name a mammal.".toList
             studentAnswer := "a whale".toList
             isCorrect := some true
             score := 1
             hasDbQuestion := false
             questionTopicName := none }]
        subjectName := none }
    progress := [] }

/-- C2 counterexample: `complete_practice_session` runs
`_update_progress_from_session` unconditionally, so a second `complete`
call on an already-`COMPLETED` session increments the per-topic counters a
second time: after one `complete` the `"General"` row holds
`(total_correct, total_questions, attempt_count) = (1, 1, 1)`; after a
repeat `complete` it holds `(2, 2, 2)`. -/
theorem c2_repeat_complete_counterexample :
    (lookupProgress (completePracticeSession 2 c2DemoWorld).progress
        ("General".toList)).map
        (fun p => (p.totalCorrect, p.totalQuestions, p.attemptCount)) =
      some (1, 1, 1) ∧
    (lookupProgress
        (completePracticeSession 3
          (completePracticeSession 2 c2DemoWorld)).progress
        ("General".toList)).map
        (fun p => (p.totalCorrect, p.totalQuestions, p.attemptCount)) =
      some (2, 2, 2) := by
  refine ⟨by decide, by decide⟩

/-- C2 (amended): a second `complete_practice_session` call on an
already-`COMPLETED` session leaves the session row unchanged aside from
re-stamping the completion time, but it is *not* a no-op for progress: the
Progress Aggregator runs again on every call, incrementing the per-topic
counters a second time (the total-questions counters grow again by the
session's answer count); at-most-once aggregation is not enforced. -/
theorem c2_complete_restamps_and_reaggregates (t1 t2 : ℚ) (w : PracticeWorld) :
    (completePracticeSession t2 (completePracticeSession t1 w)).session =
      { (completePracticeSession t1 w).session with completedAt := some t2 } ∧
    totalQuestionsSum
        (completePracticeSession t2 (completePracticeSession t1 w)).progress =
      totalQuestionsSum (completePracticeSession t1 w).progress +
        (completePracticeSession t1 w).session.answers.length := by
  constructor
  · rfl
  · exact totalQuestionsSum_updateProgress _ _ t2

/-! ## Helper lemmas: cache-key shape -/

theorem sha256Compress_length (hs chunk : List Nat) :
    (sha256Compress hs chunk).length = 8 := rfl

theorem sha256Words_length (msg : List Nat) : (sha256Words msg).length = 8 := by
  rw [sha256Words]
  generalize chunks64F (sha256Pad msg).length (sha256Pad msg) = cs
  have key : ∀ (cs : List (List Nat)) (hs : List Nat), hs.length = 8 →
      (cs.foldl sha256Compress hs).length = 8 := by
    intro cs
    induction cs with
    | nil => intro hs h; exact h
    | cons c cs ih =>
      intro hs _
      rw [List.foldl_cons]
      exact ih _ (sha256Compress_length hs c)
  exact key cs sha256H0 rfl

theorem wordHex8_length (w : Nat) : (wordHex8 w).length = 8 := rfl

theorem sha256Hex_length (s : List Char) : (sha256Hex s).length = 64 := by
  rw [sha256Hex]
  have key : ∀ ws : List Nat, (ws.flatMap wordHex8).length = 8 * ws.length := by
    intro ws
    induction ws with
    | nil => rfl
    | cons w ws ih =>
      rw [List.flatMap_cons, List.length_append, ih, wordHex8_length,
        List.length_cons]
      ring
  rw [key, sha256Words_length]

theorem makeKey_length (opKind : List Char) (params : List (List Char × JParam)) :
    (makeKey opKind params).length = opKind.length + 27 := by
  rw [makeKey, List.length_append, List.length_append, List.length_cons,
    List.length_take, sha256Hex_length]
  simp
  omega

theorem specCacheKeyFullDigest_length (opKind : List Char)
    (params : List (List Char × JParam)) :
    (specCacheKeyFullDigest opKind params).length = opKind.length + 75 := by
  rw [specCacheKeyFullDigest, List.length_append, List.length_append,
    List.length_cons, sha256Hex_length]
  simp
  omega

/-- `sort_keys=True`: sorting is a canonical form — two listings of the same
dict (same pairs, distinct keys) sort identically. -/
theorem insertionSort_keyLe_eq {l1 l2 : List (List Char × JParam)}
    (hp : l1.Perm l2) (hnd : l1.Pairwise fun a b => a.1 ≠ b.1) :
    l1.insertionSort keyLe = l2.insertionSort keyLe := by
  haveI : IsTotal (List Char × JParam) keyLe := ⟨fun a b => le_total a.1 b.1⟩
  haveI : IsTrans (List Char × JParam) keyLe :=
    ⟨fun _ _ _ h1 h2 => le_trans h1 h2⟩
  haveI : IsAntisymm (List Char × JParam) (fun a b => a.1 < b.1) :=
    ⟨fun _ _ h1 h2 => absurd h2 (lt_asymm h1)⟩
  have hsymm : ∀ {x y : List Char × JParam}, x.1 ≠ y.1 → y.1 ≠ x.1 :=
    fun h => h.symm
  have hstrict : ∀ l : List (List Char × JParam),
      List.Pairwise (fun a b : List Char × JParam => a.1 ≠ b.1) l →
      List.Sorted keyLe l → List.Sorted (fun a b => a.1 < b.1) l := by
    intro l hne hs
    exact (hs.and hne).imp fun h => lt_of_le_of_ne h.1 h.2
  apply List.eq_of_perm_of_sorted (r := fun a b => a.1 < b.1)
  · exact ((List.perm_insertionSort keyLe l1).trans hp).trans
      (List.perm_insertionSort keyLe l2).symm
  · exact hstrict _
      (((List.perm_insertionSort keyLe l1).pairwise_iff hsymm).mpr hnd)
      (List.sorted_insertionSort keyLe l1)
  · exact hstrict _
      (((List.perm_insertionSort keyLe l2).pairwise_iff hsymm).mpr
        ((hp.pairwise_iff hsymm).mp hnd))
      (List.sorted_insertionSort keyLe l2)

/-! ## C8 — cache-key determinism -/

/-- The parameter dict of a typical `query` call. -/
def demoCacheParams : List (List Char × JParam) :=
  [("question".toList, .jstr ("What is water?".toList)),
   ("collection".toList, .jstr ("P6_Science".toList)),
   ("top_k".toList, .jint 5)]

/-- C8 counterexample: the cache key is *not*
`sha256(sorted-json(request-params))` namespaced by operation kind —
`_make_key` keeps only the first 16 hex characters of the digest (the key
is 16 + 16 = 32 characters for `"query"`, not the 80 a full digest would
give), so the key differs from the spec's key at every input. -/
theorem c8_truncated_digest_counterexample :
    makeKey ("query".toList) demoCacheParams ≠
      specCacheKeyFullDigest ("query".toList) demoCacheParams ∧
    (makeKey ("query".toList) demoCacheParams).length = 32 ∧
    (specCacheKeyFullDigest ("query".toList) demoCacheParams).length = 80 := by
  have h1 : (makeKey ("query".toList) demoCacheParams).length = 32 := by
    rw [makeKey_length]
    rfl
  have h2 : (specCacheKeyFullDigest ("query".toList) demoCacheParams).length =
      80 := by
    rw [specCacheKeyFullDigest_length]
    rfl
  refine ⟨?_, h1, h2⟩
  intro h
  rw [h, h2] at h1
  exact absurd h1 (by norm_num)

/-- C8 (amended): the cache key is
`rag_cache:{kind}:{first 16 hex chars of sha256(sorted-json(params))}`, a
deterministic function of (operation kind, params-as-dict): (i) two
listings of the same params dict (same pairs, distinct keys, any order)
produce the same key; (ii) different operation kinds always produce
different keys (the digest field has fixed length); (iii) different params
produce different keys whenever their truncated digests differ — the
16-character truncation is what stands between this and unconditional
injectivity. -/
theorem c8_cache_key_determinism :
    (∀ (opKind : List Char) (l1 l2 : List (List Char × JParam)),
      l1.Perm l2 → l1.Pairwise (fun a b => a.1 ≠ b.1) →
      makeKey opKind l1 = makeKey opKind l2) ∧
    (∀ (k1 k2 : List Char) (p1 p2 : List (List Char × JParam)),
      k1 ≠ k2 → makeKey k1 p1 ≠ makeKey k2 p2) ∧
    (∀ (k : List Char) (p1 p2 : List (List Char × JParam)),
      (sha256Hex (serialiseParams p1)).take 16 ≠
        (sha256Hex (serialiseParams p2)).take 16 →
      makeKey k p1 ≠ makeKey k p2) := by
  have hdig : ∀ p : List (List Char × JParam),
      ((sha256Hex (serialiseParams p)).take 16).length = 16 := by
    intro p
    rw [List.length_take, sha256Hex_length]
    decide
  refine ⟨?_, ?_, ?_⟩
  · intro opKind l1 l2 hp hnd
    rw [makeKey, makeKey, serialiseParams, serialiseParams,
      insertionSort_keyLe_eq hp hnd]
  · intro k1 k2 p1 p2 hne h
    rw [makeKey, makeKey] at h
    have ht : (':' :: (sha256Hex (serialiseParams p1)).take 16).length =
        (':' :: (sha256Hex (serialiseParams p2)).take 16).length := by
      rw [List.length_cons, List.length_cons, hdig p1, hdig p2]
    have h4 := List.append_inj' h ht
    exact hne (List.append_cancel_left h4.1)
  · intro k p1 p2 hne h
    rw [makeKey, makeKey] at h
    have ht : (':' :: (sha256Hex (serialiseParams p1)).take 16).length =
        (':' :: (sha256Hex (serialiseParams p2)).take 16).length := by
      rw [List.length_cons, List.length_cons, hdig p1, hdig p2]
    have h4 := List.append_inj' h ht
    have h5 := h4.2
    simp only [List.cons.injEq] at h5
    exact hne h5.2

set_option maxRecDepth 400000 in
/-- Witness for C8 (amended): concrete instances of all three parts. -/
theorem c8_cache_key_determinism_witness :
    makeKey ("query".toList)
        [("top_k".toList, JParam.jint 5), ("collection".toList,
          JParam.jstr ("P6_Science".toList))] =
      makeKey ("query".toList)
        [("collection".toList, JParam.jstr ("P6_Science".toList)),
          ("top_k".toList, JParam.jint 5)] ∧
    makeKey ("retrieve".toList) demoCacheParams ≠
      makeKey ("query".toList) demoCacheParams ∧
    makeKey ("query".toList) [("top_k".toList, JParam.jint 5)] ≠
      makeKey ("query".toList) [("top_k".toList, JParam.jint 6)] :=
  ⟨c8_cache_key_determinism.1 ("query".toList) _ _ (by decide) (by decide),
   c8_cache_key_determinism.2.1 ("retrieve".toList) ("query".toList) _ _
     (by decide),
   c8_cache_key_determinism.2.2 ("query".toList) _ _ (by decide)⟩
